import Mathlib

/-!
Shallow embedding of the `bincache` crate (src/bincache/src/) and proofs about
its storage strategies (Memory, Disk, Hybrid), its limit bookkeeping, and the
`Cache` orchestration layer (put/get/take/delete/exists/recover/flush).

Modelling conventions:
* `Vec<u8>` / `Cow<[u8]>` payloads are lists of naturals (`Bytes`).
* The `usize` counters are modelled as integers (`Int`), so that a decrement
  below zero is an observable negative value rather than a silent wrap.
* The cache directory is a list of named regular files plus the `lost+found`
  subdirectory kept apart (the `read_dir` scan skips directories).  Each file
  carries a `readable` flag: file reads (`File::open` + `read_to_end`) can fail
  on a real filesystem, and an unreadable file models exactly that.  Writes
  (`File::create` + `write_all` + `sync_data`) and renames are modelled as
  always succeeding.
* `Result<T, Error>` becomes `Except Err T`.  Operations that in Rust mutate
  `&mut self` before a fallible step returns early are modelled as returning
  the (partially) mutated state next to the `Except` result.
* `CacheKey::to_key` for string keys is the identity, and all files live
  directly under the one cache directory, so a path is just the key string.
-/

deriving instance DecidableEq for Except

namespace Bincache

/-- Raw binary payloads, `Vec<u8>` / `Cow<[u8]>` in the source. -/
abbrev Bytes := List Nat

/-- `bincache::Error` (error.rs), restricted to the variants the modelled code
produces.  `limit_kind` carries the same strings the source uses; every
filesystem failure is collapsed into `ioError`. -/
inductive Err where
  | keyNotFound
  | limitExceeded (limit_kind : String)
  | ioError
deriving DecidableEq

/-- `LIMIT_KIND_BYTE` from memory.rs and disk.rs. -/
def LIMIT_KIND_BYTE : String := "Stored bytes"

/-- `LIMIT_KIND_ENTRY` from memory.rs and disk.rs. -/
def LIMIT_KIND_ENTRY : String := "Stored entries"

/-- `LIMIT_KIND_BYTE_DISK` from hybrid.rs. -/
def LIMIT_KIND_BYTE_DISK : String := "Stored bytes on disk"

/-- `LIMIT_KIND_ENTRY_DISK` from hybrid.rs. -/
def LIMIT_KIND_ENTRY_DISK : String := "Stored entries on disk"

/-- One regular file in the cache directory: name, contents, and whether
reading it succeeds. Files created by the modelled writes are readable. -/
structure FileRec where
  name : String
  content : Bytes
  readable : Bool
deriving DecidableEq

/-- The cache directory: its regular files, plus the contents of the
`lost+found` subdirectory (kept apart because the recovery scan skips
directories). -/
structure DirFS where
  files : List FileRec
  lostFound : List FileRec
deriving DecidableEq

/-- `File::create` + `write_all` + `sync_data` (`write_to_disk` in disk.rs and
hybrid.rs): create the file or truncate an existing one. -/
def writeFiles : List FileRec → String → Bytes → List FileRec
  | [], name, content => [⟨name, content, true⟩]
  | fl :: rest, name, content =>
    if fl.name = name then ⟨name, content, true⟩ :: rest
    else fl :: writeFiles rest name content

def DirFS.write (fs : DirFS) (name : String) (content : Bytes) : DirFS :=
  { fs with files := writeFiles fs.files name content }

/-- `File::open` + `read_to_end` (`read_from_disk`): fails when the file is
absent or unreadable. -/
def readFiles : List FileRec → String → Except Err Bytes
  | [], _ => .error .ioError
  | fl :: rest, name =>
    if fl.name = name then (if fl.readable then .ok fl.content else .error .ioError)
    else readFiles rest name

def DirFS.read (fs : DirFS) (name : String) : Except Err Bytes :=
  readFiles fs.files name

/-- `std::fs::remove_file` (`delete_from_disk`): fails when the file is
absent. -/
def removeFiles : List FileRec → String → Except Err (List FileRec)
  | [], _ => .error .ioError
  | fl :: rest, name =>
    if fl.name = name then .ok rest
    else (removeFiles rest name).map (fl :: ·)

def DirFS.remove (fs : DirFS) (name : String) : Except Err DirFS :=
  (removeFiles fs.files name).map fun l => { fs with files := l }

/-- The `current + candidate > limit` test every put path performs;
`none` means the limit is not configured. -/
def crossesLimit (limit : Option Nat) (next : Int) : Bool :=
  match limit with
  | some l => decide ((l : Int) < next)
  | none => false

/-! ## Memory strategy (strategies/memory.rs) -/

/-- memory.rs `Entry`: owned bytes plus the recorded byte length. -/
structure MemoryEntry where
  data : Bytes
  byte_len : Nat
deriving DecidableEq

/-- memory.rs `Memory`: optional limits plus running counters. -/
structure Memory where
  byte_limit : Option Nat
  entry_limit : Option Nat
  current_byte_count : Int
  current_entry_count : Int
deriving DecidableEq

/-- memory.rs `Memory::put` (lines 46-80): the byte limit and the entry limit
are checked independently, then the counters are incremented and an owned
entry is returned. The key is unused (`_key` in the source). -/
def Memory.put (s : Memory) (_key : String) (value : Bytes) :
    Except Err (Memory × MemoryEntry) :=
  let byte_len := value.length
  if crossesLimit s.byte_limit (s.current_byte_count + byte_len) then
    .error (.limitExceeded LIMIT_KIND_BYTE)
  else if crossesLimit s.entry_limit (s.current_entry_count + 1) then
    .error (.limitExceeded LIMIT_KIND_ENTRY)
  else
    .ok ({ s with
            current_byte_count := s.current_byte_count + byte_len,
            current_entry_count := s.current_entry_count + 1 },
         { data := value, byte_len := byte_len })

/-- memory.rs `Memory::get`: a borrowed view of the stored bytes. -/
def Memory.get (_s : Memory) (e : MemoryEntry) : Except Err Bytes :=
  .ok e.data

/-- memory.rs `Memory::take`: decrement the counters, return the owned bytes. -/
def Memory.take (s : Memory) (e : MemoryEntry) : Except Err (Memory × Bytes) :=
  .ok ({ s with
          current_byte_count := s.current_byte_count - e.byte_len,
          current_entry_count := s.current_entry_count - 1 },
       e.data)

/-- memory.rs `Memory::delete`: `take`, discarding the bytes. -/
def Memory.delete (s : Memory) (e : MemoryEntry) : Except Err Memory :=
  (Memory.take s e).map Prod.fst

/-! ## Disk strategy (strategies/disk.rs) -/

/-- disk.rs `Entry`: path of the backing file plus the recorded byte length. -/
structure DiskEntry where
  path : String
  byte_len : Nat
deriving DecidableEq

/-- disk.rs `Disk`: optional limits plus running counters (the cache directory
itself is implicit: paths are file names under it). -/
structure Disk where
  byte_limit : Option Nat
  entry_limit : Option Nat
  current_byte_count : Int
  current_entry_count : Int
deriving DecidableEq

/-- disk.rs `Disk::put` (lines 116-151): independent byte and entry limit
checks, then the payload is written to the file named by the key and the
counters are incremented. -/
def Disk.put (s : Disk) (fs : DirFS) (key : String) (value : Bytes) :
    Except Err (Disk × DirFS × DiskEntry) :=
  let byte_len := value.length
  if crossesLimit s.byte_limit (s.current_byte_count + byte_len) then
    .error (.limitExceeded LIMIT_KIND_BYTE)
  else if crossesLimit s.entry_limit (s.current_entry_count + 1) then
    .error (.limitExceeded LIMIT_KIND_ENTRY)
  else
    .ok ({ s with
            current_byte_count := s.current_byte_count + byte_len,
            current_entry_count := s.current_entry_count + 1 },
         fs.write key value,
         { path := key, byte_len := byte_len })

/-- disk.rs `Disk::get`: read the backing file. -/
def Disk.get (_s : Disk) (fs : DirFS) (e : DiskEntry) : Except Err Bytes :=
  fs.read e.path

/-- disk.rs `Disk::delete`: remove the backing file, then decrement the
counters (a failed removal leaves the counters untouched). -/
def Disk.delete (s : Disk) (fs : DirFS) (e : DiskEntry) :
    Except Err (Disk × DirFS) :=
  match fs.remove e.path with
  | .error err => .error err
  | .ok fs' =>
    .ok ({ s with
            current_byte_count := s.current_byte_count - e.byte_len,
            current_entry_count := s.current_entry_count - 1 }, fs')

/-- disk.rs `Disk::take`: read the backing file, then `delete`. -/
def Disk.take (s : Disk) (fs : DirFS) (e : DiskEntry) :
    Except Err (Disk × DirFS × Bytes) :=
  match fs.read e.path with
  | .error err => .error err
  | .ok data =>
    match Disk.delete s fs e with
    | .error err => .error err
    | .ok (s', fs') => .ok (s', fs', data)

/-- disk.rs `Disk::recover` main loop (lines 195-247): scan the directory in
order; parser-rejected files move to `lost+found` and are excluded; accepted
files are read in full (an unreadable file aborts the whole scan with the I/O
error, leaving it and the remaining files in place) and registered with the
counters incremented. Returns the mutated counters, the files kept, the files
moved, and the result. -/
def diskRecoverLoop (s : Disk) (rk : String → Option String) :
    List FileRec → Disk × List FileRec × List FileRec × Except Err (List (String × DiskEntry))
  | [] => (s, [], [], .ok [])
  | fl :: rest =>
    match rk fl.name with
    | none =>
      let (s', keep, lost, res) := diskRecoverLoop s rk rest
      (s', keep, fl :: lost, res)
    | some key =>
      if fl.readable then
        let s' := { s with
                     current_byte_count := s.current_byte_count + fl.content.length,
                     current_entry_count := s.current_entry_count + 1 }
        let (s'', keep, lost, res) := diskRecoverLoop s' rk rest
        (s'', fl :: keep, lost, res.map ((key, ⟨fl.name, fl.content.length⟩) :: ·))
      else
        (s, fl :: rest, [], .error .ioError)

/-- disk.rs `Disk::recover` (lines 177-252), returning the mutated state and
filesystem even when the scan aborts (`&mut self` semantics). -/
def Disk.recover (s : Disk) (fs : DirFS) (rk : String → Option String) :
    Disk × DirFS × Except Err (List (String × DiskEntry)) :=
  match diskRecoverLoop s rk fs.files with
  | (s', keep, lost, res) =>
    (s', { files := keep, lostFound := fs.lostFound ++ lost }, res)

/-! ## Hybrid strategy (strategies/hybrid.rs) -/

/-- hybrid.rs `LimitExceededKind`. -/
inductive LimitExceededKind where
  | bytes
  | entries
deriving DecidableEq

/-- hybrid.rs `LimitEvaluation`. -/
inductive LimitEvaluation where
  | limitSatisfied
  | limitExceeded (kind : LimitExceededKind)
deriving DecidableEq

/-- hybrid.rs `LimitEvaluation::is_satisfied`. -/
def LimitEvaluation.is_satisfied : LimitEvaluation → Bool
  | .limitSatisfied => true
  | .limitExceeded _ => false

/-- hybrid.rs `Limits`: one tier's limits and counters. -/
structure Limits where
  byte_limit : Option Nat
  entry_limit : Option Nat
  current_byte_count : Int
  current_entry_count : Int
deriving DecidableEq

/-- hybrid.rs `Limits::evaluate` (lines 75-87). Note the `else if` of the
source: the entry limit is consulted only when no byte limit is configured. -/
def Limits.evaluate (l : Limits) (size : Nat) : LimitEvaluation :=
  match l.byte_limit with
  | some byte_limit =>
    if (byte_limit : Int) < l.current_byte_count + size then .limitExceeded .bytes
    else .limitSatisfied
  | none =>
    match l.entry_limit with
    | some entries_limit =>
      if (entries_limit : Int) < l.current_entry_count + 1 then .limitExceeded .entries
      else .limitSatisfied
    | none => .limitSatisfied

/-- The `current_byte_count += byte_len; current_entry_count += 1` pair the
hybrid strategy performs after a successful store. -/
def Limits.incr (l : Limits) (byte_len : Nat) : Limits :=
  { l with
     current_byte_count := l.current_byte_count + byte_len,
     current_entry_count := l.current_entry_count + 1 }

/-- The matching decrement pair performed after a successful removal. -/
def Limits.decr (l : Limits) (byte_len : Nat) : Limits :=
  { l with
     current_byte_count := l.current_byte_count - byte_len,
     current_entry_count := l.current_entry_count - 1 }

/-- hybrid.rs `Entry`: memory-resident or disk-resident. -/
inductive HEntry where
  | memory (e : MemoryEntry)
  | disk (e : DiskEntry)
deriving DecidableEq

/-- hybrid.rs `Hybrid`: independent limits for the memory and disk tiers. -/
structure Hybrid where
  memory_limits : Limits
  disk_limits : Limits
deriving DecidableEq

/-- hybrid.rs `Hybrid::put` (lines 176-221): memory-tier fit is evaluated
first; if satisfied the value is stored in memory, else if the disk tier is
satisfied the value is written to the file named by the key, else the error
names the disk tier's failing dimension (the `unreachable!` arm of the source
is the impossible `limitSatisfied` case of the final match). -/
def Hybrid.put (s : Hybrid) (fs : DirFS) (key : String) (value : Bytes) :
    Except Err (Hybrid × DirFS × HEntry) :=
  let byte_len := value.length
  let fits_into_memory := s.memory_limits.evaluate byte_len
  let fits_into_disk := s.disk_limits.evaluate byte_len
  if fits_into_memory.is_satisfied then
    .ok ({ s with memory_limits := s.memory_limits.incr byte_len }, fs,
         .memory { data := value, byte_len := byte_len })
  else
    match fits_into_disk with
    | .limitSatisfied =>
      .ok ({ s with disk_limits := s.disk_limits.incr byte_len }, fs.write key value,
           .disk { path := key, byte_len := byte_len })
    | .limitExceeded .bytes => .error (.limitExceeded LIMIT_KIND_BYTE_DISK)
    | .limitExceeded .entries => .error (.limitExceeded LIMIT_KIND_ENTRY_DISK)

/-- hybrid.rs `Hybrid::get` (lines 223-228). -/
def Hybrid.get (_s : Hybrid) (fs : DirFS) : HEntry → Except Err Bytes
  | .memory e => .ok e.data
  | .disk e => fs.read e.path

/-- hybrid.rs `Hybrid::take` (lines 230-252). -/
def Hybrid.take (s : Hybrid) (fs : DirFS) : HEntry → Except Err (Hybrid × DirFS × Bytes)
  | .memory e =>
    .ok ({ s with memory_limits := s.memory_limits.decr e.byte_len }, fs, e.data)
  | .disk e =>
    match fs.read e.path with
    | .error err => .error err
    | .ok data =>
      match fs.remove e.path with
      | .error err => .error err
      | .ok fs' =>
        .ok ({ s with disk_limits := s.disk_limits.decr e.byte_len }, fs', data)

/-- hybrid.rs `Hybrid::delete` (lines 254-271). -/
def Hybrid.delete (s : Hybrid) (fs : DirFS) : HEntry → Except Err (Hybrid × DirFS)
  | .memory e =>
    .ok ({ s with memory_limits := s.memory_limits.decr e.byte_len }, fs)
  | .disk e =>
    match fs.remove e.path with
    | .error err => .error err
    | .ok fs' =>
      .ok ({ s with disk_limits := s.disk_limits.decr e.byte_len }, fs')

/-- hybrid.rs `Hybrid::recover` main loop (lines 294-346): same scan as the
disk strategy, but every recovered item is disk-tier and only disk-tier
counters are updated. -/
def hybridRecoverLoop (s : Hybrid) (rk : String → Option String) :
    List FileRec → Hybrid × List FileRec × List FileRec × Except Err (List (String × HEntry))
  | [] => (s, [], [], .ok [])
  | fl :: rest =>
    match rk fl.name with
    | none =>
      let (s', keep, lost, res) := hybridRecoverLoop s rk rest
      (s', keep, fl :: lost, res)
    | some key =>
      if fl.readable then
        let s' := { s with disk_limits := s.disk_limits.incr fl.content.length }
        let (s'', keep, lost, res) := hybridRecoverLoop s' rk rest
        (s'', fl :: keep, lost,
         res.map ((key, HEntry.disk ⟨fl.name, fl.content.length⟩) :: ·))
      else
        (s, fl :: rest, [], .error .ioError)

/-- hybrid.rs `Hybrid::recover` (lines 275-351). -/
def Hybrid.recover (s : Hybrid) (fs : DirFS) (rk : String → Option String) :
    Hybrid × DirFS × Except Err (List (String × HEntry)) :=
  match hybridRecoverLoop s rk fs.files with
  | (s', keep, lost, res) =>
    (s', { files := keep, lostFound := fs.lostFound ++ lost }, res)

/-- hybrid.rs `Hybrid::flush` (lines 353-391): `none` for disk entries; for a
memory entry, evaluate disk-tier fit, then write the bytes to the file named
by the key, increment the disk counters and return the new disk entry. -/
def Hybrid.flush (s : Hybrid) (fs : DirFS) (key : String) :
    HEntry → Except Err (Hybrid × DirFS × Option HEntry)
  | .disk _ => .ok (s, fs, none)
  | .memory e =>
    match s.disk_limits.evaluate e.byte_len with
    | .limitExceeded .bytes => .error (.limitExceeded LIMIT_KIND_BYTE_DISK)
    | .limitExceeded .entries => .error (.limitExceeded LIMIT_KIND_ENTRY_DISK)
    | .limitSatisfied =>
      .ok ({ s with disk_limits := s.disk_limits.incr e.byte_len },
           fs.write key e.data,
           some (.disk { path := key, byte_len := e.byte_len }))

/-! ## Compression layer and the Cache orchestration (cache.rs) -/

/-- A compression strategy (traits/compression_strategy.rs): a codec pair.
`Option<C>` with `None` and the no-op compressor both act as the identity. -/
structure Compressor where
  compress : Bytes → Except Err Bytes
  decompress : Bytes → Except Err Bytes

/-- compression/noop_compressor.rs `Noop` (also the `None` case of the
`Option<C>` blanket implementation): both directions return the input. -/
def Compressor.noop : Compressor :=
  { compress := fun data => .ok data, decompress := fun data => .ok data }

/-- The codec contract of the spec: decompressing a compressed payload gives
the payload back.  Every supported codec is required to satisfy it. -/
def Compressor.RoundTrip (c : Compressor) : Prop :=
  ∀ b : Bytes, ∃ cb : Bytes, c.compress b = .ok cb ∧ c.decompress cb = .ok b

/-- The `CacheStrategy` trait surface the `Cache` consumes, as a record of
operations over a strategy-state type `σ` and an opaque entry type `ε`. -/
structure StratOps (σ ε : Type) where
  put : σ → String → Bytes → Except Err (σ × ε)
  get : σ → ε → Except Err Bytes
  take : σ → ε → Except Err (σ × Bytes)
  delete : σ → ε → Except Err σ

/-- The memory strategy as a `StratOps` instance. -/
def memOps : StratOps Memory MemoryEntry where
  put := Memory.put
  get := Memory.get
  take := Memory.take
  delete := Memory.delete

/-- The disk strategy as a `StratOps` instance; its state carries the cache
directory contents. -/
def diskOps : StratOps (Disk × DirFS) DiskEntry where
  put := fun st key value => (Disk.put st.1 st.2 key value).map fun r => ((r.1, r.2.1), r.2.2)
  get := fun st e => Disk.get st.1 st.2 e
  take := fun st e => (Disk.take st.1 st.2 e).map fun r => ((r.1, r.2.1), r.2.2)
  delete := fun st e => Disk.delete st.1 st.2 e

/-- The hybrid strategy as a `StratOps` instance. -/
def hybridOps : StratOps (Hybrid × DirFS) HEntry where
  put := fun st key value => (Hybrid.put st.1 st.2 key value).map fun r => ((r.1, r.2.1), r.2.2)
  get := fun st e => Hybrid.get st.1 st.2 e
  take := fun st e => (Hybrid.take st.1 st.2 e).map fun r => ((r.1, r.2.1), r.2.2)
  delete := fun st e => Hybrid.delete st.1 st.2 e

/-- `HashMap::get` on the key-to-entry map, as an association list. -/
def lookupA {ε : Type} : List (String × ε) → String → Option ε
  | [], _ => none
  | (k', e) :: rest, k => if k' = k then some e else lookupA rest k

/-- `HashMap::insert`: replace the entry of an existing key, else append. -/
def insertA {ε : Type} : List (String × ε) → String → ε → List (String × ε)
  | [], k, e => [(k, e)]
  | (k', e') :: rest, k, e =>
    if k' = k then (k, e) :: rest else (k', e') :: insertA rest k e

/-- `HashMap::remove`: the removed entry and the remaining map, if present. -/
def removeA {ε : Type} : List (String × ε) → String → Option (ε × List (String × ε))
  | [], _ => none
  | (k', e) :: rest, k =>
    if k' = k then some (e, rest)
    else (removeA rest k).map fun r => (r.1, (k', e) :: r.2)

/-- cache.rs `Cache`: the key-to-entry map, the strategy state, and the
(possibly no-op) compressor. -/
structure CacheS (σ ε : Type) where
  data : List (String × ε)
  strategy : σ
  compressor : Compressor

/-- cache.rs `Cache::put` (lines 40-49): compress, store through the strategy,
then insert (silently overwriting) into the map. -/
def cachePut {σ ε : Type} (ops : StratOps σ ε) (c : CacheS σ ε) (key : String)
    (value : Bytes) : CacheS σ ε × Except Err Unit :=
  match c.compressor.compress value with
  | .error e => (c, .error e)
  | .ok cv =>
    match ops.put c.strategy key cv with
    | .error e => (c, .error e)
    | .ok (s', entry) =>
      ({ c with strategy := s', data := insertA c.data key entry }, .ok ())

/-- cache.rs `Cache::get` (lines 52-56): map lookup, strategy get,
decompress. -/
def cacheGet {σ ε : Type} (ops : StratOps σ ε) (c : CacheS σ ε) (key : String) :
    Except Err Bytes :=
  match lookupA c.data key with
  | none => .error .keyNotFound
  | some entry =>
    match ops.get c.strategy entry with
    | .error e => .error e
    | .ok v => c.compressor.decompress v

/-- cache.rs `Cache::take` (lines 59-63): map removal happens first, so a
later failure leaves the entry removed from the map. -/
def cacheTake {σ ε : Type} (ops : StratOps σ ε) (c : CacheS σ ε) (key : String) :
    CacheS σ ε × Except Err Bytes :=
  match removeA c.data key with
  | none => (c, .error .keyNotFound)
  | some (entry, data') =>
    match ops.take c.strategy entry with
    | .error e => ({ c with data := data' }, .error e)
    | .ok (s', v) =>
      match c.compressor.decompress v with
      | .error e => ({ c with data := data', strategy := s' }, .error e)
      | .ok dv => ({ c with data := data', strategy := s' }, .ok dv)

/-- cache.rs `Cache::delete` (lines 66-69). -/
def cacheDelete {σ ε : Type} (ops : StratOps σ ε) (c : CacheS σ ε) (key : String) :
    CacheS σ ε × Except Err Unit :=
  match removeA c.data key with
  | none => (c, .error .keyNotFound)
  | some (entry, data') =>
    match ops.delete c.strategy entry with
    | .error e => ({ c with data := data' }, .error e)
    | .ok s' => ({ c with data := data', strategy := s' }, .ok ())

/-- cache.rs `Cache::exists` (lines 72-74): pure map membership. -/
def cacheExists {σ ε : Type} (c : CacheS σ ε) (key : String) : Bool :=
  (lookupA c.data key).isSome

/-- First loop of cache.rs `Cache::flush` (lines 128-135), specialised to the
hybrid strategy: flush every entry in map order, collecting the keys to
remove, the replacement entries, and the flushed count; the first error aborts
with the strategy state as mutated so far. -/
def flushScan (s : Hybrid) (fs : DirFS) :
    List (String × HEntry) →
      (Hybrid × DirFS) × Except Err (List String × List (String × HEntry) × Nat)
  | [] => ((s, fs), .ok ([], [], 0))
  | (key, entry) :: rest =>
    match Hybrid.flush s fs key entry with
    | .error e => ((s, fs), .error e)
    | .ok (s', fs', none) => flushScan s' fs' rest
    | .ok (s', fs', some ne) =>
      match flushScan s' fs' rest with
      | (st, .error e) => (st, .error e)
      | (st, .ok (ks, ins, n)) => (st, .ok (key :: ks, (key, ne) :: ins, n + 1))

/-- Second loop of cache.rs `Cache::flush` (lines 138-141): remove each
flushed key from the map and delete the old entry through the strategy. -/
def flushRemoveLoop (s : Hybrid) (fs : DirFS) (data : List (String × HEntry)) :
    List String → (Hybrid × DirFS × List (String × HEntry)) × Except Err Unit
  | [] => ((s, fs, data), .ok ())
  | k :: ks =>
    match removeA data k with
    | none => ((s, fs, data), .error .keyNotFound)
    | some (entry, data') =>
      match Hybrid.delete s fs entry with
      | .error e => ((s, fs, data'), .error e)
      | .ok (s', fs') => flushRemoveLoop s' fs' data' ks

/-- cache.rs `Cache::flush` (lines 122-149) over the hybrid strategy: scan,
remove-and-delete, then insert the replacement entries; returns the flushed
count. -/
def cacheFlush (c : CacheS (Hybrid × DirFS) HEntry) :
    CacheS (Hybrid × DirFS) HEntry × Except Err Nat :=
  match flushScan c.strategy.1 c.strategy.2 c.data with
  | (st, .error e) => ({ c with strategy := st }, .error e)
  | (st, .ok (ks, ins, n)) =>
    match flushRemoveLoop st.1 st.2 c.data ks with
    | ((s', fs', data'), .error e) =>
      ({ c with strategy := (s', fs'), data := data' }, .error e)
    | ((s', fs', data'), .ok _) =>
      ({ c with strategy := (s', fs'),
                data := ins.foldl (fun d p => insertA d p.1 p.2) data' }, .ok n)

/-! ## Live-entry aggregates for the counter invariants -/

/-- The map with the first occurrence of a key dropped (the tail produced by a
successful `removeA`). -/
def eraseA {ε : Type} : List (String × ε) → String → List (String × ε)
  | [], _ => []
  | (k', e') :: rest, k => if k' = k then rest else (k', e') :: eraseA rest k

/-- Total byte length of a list of live memory entries, as an integer. -/
def memBytes : List MemoryEntry → Int
  | [] => 0
  | e :: rest => e.byte_len + memBytes rest

/-- Total byte length of a list of live disk entries, as an integer. -/
def diskBytes : List DiskEntry → Int
  | [] => 0
  | e :: rest => e.byte_len + diskBytes rest

/-- The memory strategy's counters agree with its live entries: the byte count
is the total length of the stored values and the entry count their number. -/
def MemoryInv (s : Memory) (es : List MemoryEntry) : Prop :=
  s.current_byte_count = memBytes es ∧ s.current_entry_count = (es.length : Int)

/-- The disk strategy's counters agree with its live entries. -/
def DiskInv (s : Disk) (es : List DiskEntry) : Prop :=
  s.current_byte_count = diskBytes es ∧ s.current_entry_count = (es.length : Int)

/-- Total byte length of the memory-resident entries of a hybrid entry list. -/
def hMemBytes : List HEntry → Int
  | [] => 0
  | .memory e :: rest => e.byte_len + hMemBytes rest
  | .disk _ :: rest => hMemBytes rest

/-- Number of memory-resident entries of a hybrid entry list. -/
def hMemCount : List HEntry → Int
  | [] => 0
  | .memory _ :: rest => 1 + hMemCount rest
  | .disk _ :: rest => hMemCount rest

/-- Total byte length of the disk-resident entries of a hybrid entry list. -/
def hDiskBytes : List HEntry → Int
  | [] => 0
  | .memory _ :: rest => hDiskBytes rest
  | .disk e :: rest => e.byte_len + hDiskBytes rest

/-- Number of disk-resident entries of a hybrid entry list. -/
def hDiskCount : List HEntry → Int
  | [] => 0
  | .memory _ :: rest => hDiskCount rest
  | .disk _ :: rest => 1 + hDiskCount rest

/-- The files of a directory listing whose names the key parser accepts. -/
def acceptedFiles (rk : String → Option String) (l : List FileRec) : List FileRec :=
  l.filter fun fl => (rk fl.name).isSome

/-- The files of a directory listing whose names the key parser rejects. -/
def rejectedFiles (rk : String → Option String) (l : List FileRec) : List FileRec :=
  l.filter fun fl => (rk fl.name).isNone

/-- Total content length of a directory listing, as an integer. -/
def filesBytes : List FileRec → Int
  | [] => 0
  | fl :: rest => fl.content.length + filesBytes rest

/-- The (key, entry) pairs a full recovery scan registers for the disk
strategy: one disk entry per parser-accepted file, in scan order. -/
def recoveredPairsD (rk : String → Option String) : List FileRec → List (String × DiskEntry)
  | [] => []
  | fl :: rest =>
    match rk fl.name with
    | none => recoveredPairsD rk rest
    | some key => (key, ⟨fl.name, fl.content.length⟩) :: recoveredPairsD rk rest

/-- The (key, entry) pairs a full recovery scan registers for the hybrid
strategy: every recovered item is disk-resident. -/
def recoveredPairsH (rk : String → Option String) : List FileRec → List (String × HEntry)
  | [] => []
  | fl :: rest =>
    match rk fl.name with
    | none => recoveredPairsH rk rest
    | some key => (key, .disk ⟨fl.name, fl.content.length⟩) :: recoveredPairsH rk rest

/-- Whether a hybrid entry is memory-resident. -/
def isMemoryEntry : HEntry → Bool
  | .memory _ => true
  | .disk _ => false

/-- The memory-resident pairs of the key-to-entry map. -/
def memPairs (data : List (String × HEntry)) : List (String × HEntry) :=
  data.filter fun p => isMemoryEntry p.2

/-- The disk-resident pairs of the key-to-entry map. -/
def diskPairs (data : List (String × HEntry)) : List (String × HEntry) :=
  data.filter fun p => !isMemoryEntry p.2

/-- The keys of the memory-resident pairs, in map order. -/
def memKeys (data : List (String × HEntry)) : List String :=
  (memPairs data).map Prod.fst

/-- The replacement pairs a fully successful flush scan produces: one disk
entry (at the file named by the key) per memory-resident pair, in map
order. -/
def flushedPairs : List (String × HEntry) → List (String × HEntry)
  | [] => []
  | (k, .memory me) :: rest => (k, .disk ⟨k, me.byte_len⟩) :: flushedPairs rest
  | (_, .disk _) :: rest => flushedPairs rest

/-- Both hybrid tiers' counters agree with the live entries of their tier. -/
def HybridInv (s : Hybrid) (es : List HEntry) : Prop :=
  s.memory_limits.current_byte_count = hMemBytes es ∧
  s.memory_limits.current_entry_count = hMemCount es ∧
  s.disk_limits.current_byte_count = hDiskBytes es ∧
  s.disk_limits.current_entry_count = hDiskCount es

/-! ## Helper lemmas about the map and the filesystem model -/

/-- Looking up the key just inserted yields the inserted entry. -/
theorem lookupA_insertA_self {ε : Type} (d : List (String × ε)) (k : String) (e : ε) :
    lookupA (insertA d k e) k = some e := by
  induction d with
  | nil => simp [insertA, lookupA]
  | cons p rest ih =>
    obtain ⟨k', e'⟩ := p
    by_cases h : k' = k
    · simp [insertA, h, lookupA]
    · simp [insertA, h, lookupA, ih]

/-- Inserting one key does not disturb lookups of other keys. -/
theorem lookupA_insertA_ne {ε : Type} (d : List (String × ε)) (k k' : String) (e : ε)
    (h : k' ≠ k) : lookupA (insertA d k e) k' = lookupA d k' := by
  induction d with
  | nil => simp [insertA, lookupA, Ne.symm h]
  | cons p rest ih =>
    obtain ⟨k0, e0⟩ := p
    by_cases h0 : k0 = k
    · subst h0
      simp [insertA, lookupA, Ne.symm h]
    · simp [insertA, h0, lookupA, ih]

/-- Absent keys look up to `none`. -/
theorem lookupA_eq_none_of_not_mem {ε : Type} (d : List (String × ε)) (k : String)
    (h : k ∉ d.map Prod.fst) : lookupA d k = none := by
  induction d with
  | nil => rfl
  | cons p rest ih =>
    obtain ⟨k', e'⟩ := p
    simp only [List.map_cons, List.mem_cons] at h
    push_neg at h
    simp [lookupA, Ne.symm h.1, ih h.2]

/-- Removing the key just inserted gives back the inserted entry and the map
with that key dropped. -/
theorem removeA_insertA {ε : Type} (d : List (String × ε)) (k : String) (e : ε) :
    removeA (insertA d k e) k = some (e, eraseA d k) := by
  induction d with
  | nil => simp [insertA, removeA, eraseA]
  | cons p rest ih =>
    obtain ⟨k', e'⟩ := p
    by_cases h : k' = k
    · simp [insertA, h, removeA, eraseA]
    · simp [insertA, h, removeA, eraseA, ih]

/-- With distinct keys, dropping a key makes it unfindable. -/
theorem lookupA_eraseA_self {ε : Type} (d : List (String × ε)) (k : String)
    (h : (d.map Prod.fst).Nodup) : lookupA (eraseA d k) k = none := by
  induction d with
  | nil => rfl
  | cons p rest ih =>
    obtain ⟨k', e'⟩ := p
    simp only [List.map_cons, List.nodup_cons] at h
    by_cases hk : k' = k
    · subst hk
      simpa [eraseA] using lookupA_eq_none_of_not_mem rest k' h.1
    · simp [eraseA, hk, lookupA, ih h.2]

/-- Reading a just-written file yields the written contents. -/
theorem readFiles_writeFiles_self (l : List FileRec) (name : String) (content : Bytes) :
    readFiles (writeFiles l name content) name = .ok content := by
  induction l with
  | nil => simp [writeFiles, readFiles]
  | cons fl rest ih =>
    by_cases h : fl.name = name
    · simp [writeFiles, h, readFiles]
    · simp [writeFiles, h, readFiles, ih]

/-- A just-written file can be removed. -/
theorem removeFiles_writeFiles_self (l : List FileRec) (name : String) (content : Bytes) :
    ∃ l', removeFiles (writeFiles l name content) name = .ok l' := by
  induction l with
  | nil => exact ⟨[], by simp [writeFiles, removeFiles]⟩
  | cons fl rest ih =>
    by_cases h : fl.name = name
    · exact ⟨rest, by simp [writeFiles, h, removeFiles]⟩
    · obtain ⟨l', hl'⟩ := ih
      exact ⟨fl :: l', by simp [writeFiles, h, removeFiles, hl', Except.map]⟩

/-! ## Inversion lemmas for successful operations -/

/-- A successful `Cache::put` decomposes into a successful compression, a
successful strategy put, and a map insert. -/
theorem cachePut_ok {σ ε : Type} (ops : StratOps σ ε) (c : CacheS σ ε) (key : String)
    (value : Bytes) (c' : CacheS σ ε)
    (h : cachePut ops c key value = (c', .ok ())) :
    ∃ cv s' entry, c.compressor.compress value = .ok cv ∧
      ops.put c.strategy key cv = .ok (s', entry) ∧
      c' = { c with strategy := s', data := insertA c.data key entry } := by
  cases hc : c.compressor.compress value with
  | error e =>
    rw [show cachePut ops c key value = (c, .error e) by
      simp [cachePut, hc]] at h
    simp at h
  | ok cv =>
    cases hp : ops.put c.strategy key cv with
    | error e =>
      rw [show cachePut ops c key value = (c, .error e) by
        simp [cachePut, hc, hp]] at h
      simp at h
    | ok pr =>
      obtain ⟨s', entry⟩ := pr
      rw [show cachePut ops c key value =
          ({ c with strategy := s', data := insertA c.data key entry }, .ok ()) by
        simp [cachePut, hc, hp]] at h
      exact ⟨cv, s', entry, rfl, hp, (congrArg Prod.fst h).symm⟩

/-- A successful `Memory::put` stores the given bytes and bumps the counters. -/
theorem memory_put_ok (s : Memory) (key : String) (value : Bytes) (s' : Memory)
    (e : MemoryEntry) (h : Memory.put s key value = .ok (s', e)) :
    e = { data := value, byte_len := value.length } ∧
    s' = { s with
            current_byte_count := s.current_byte_count + value.length,
            current_entry_count := s.current_entry_count + 1 } ∧
    crossesLimit s.byte_limit (s.current_byte_count + value.length) = false ∧
    crossesLimit s.entry_limit (s.current_entry_count + 1) = false := by
  by_cases hb : crossesLimit s.byte_limit (s.current_byte_count + value.length) = true
  · simp [Memory.put, hb] at h
  · by_cases he : crossesLimit s.entry_limit (s.current_entry_count + 1) = true
    · simp [Memory.put, hb, he] at h
    · simp only [Bool.not_eq_true] at hb he
      simp only [Memory.put, hb, he, Bool.false_eq_true, if_false,
        Except.ok.injEq, Prod.mk.injEq] at h
      exact ⟨h.2.symm, h.1.symm, hb, he⟩

/-- A successful `Disk::put` writes the file named by the key and bumps the
counters. -/
theorem disk_put_ok (s : Disk) (fs : DirFS) (key : String) (value : Bytes)
    (s' : Disk) (fs' : DirFS) (e : DiskEntry)
    (h : Disk.put s fs key value = .ok (s', fs', e)) :
    e = { path := key, byte_len := value.length } ∧
    fs' = fs.write key value ∧
    s' = { s with
            current_byte_count := s.current_byte_count + value.length,
            current_entry_count := s.current_entry_count + 1 } ∧
    crossesLimit s.byte_limit (s.current_byte_count + value.length) = false ∧
    crossesLimit s.entry_limit (s.current_entry_count + 1) = false := by
  by_cases hb : crossesLimit s.byte_limit (s.current_byte_count + value.length) = true
  · simp [Disk.put, hb] at h
  · by_cases he : crossesLimit s.entry_limit (s.current_entry_count + 1) = true
    · simp [Disk.put, hb, he] at h
    · simp only [Bool.not_eq_true] at hb he
      simp only [Disk.put, hb, he, Bool.false_eq_true, if_false,
        Except.ok.injEq, Prod.mk.injEq] at h
      exact ⟨h.2.2.symm, h.2.1.symm, h.1.symm, hb, he⟩

/-- A successful `Hybrid::put` either stored in memory (filesystem untouched)
or wrote the file named by the key. -/
theorem hybrid_put_ok (s : Hybrid) (fs : DirFS) (key : String) (value : Bytes)
    (s' : Hybrid) (fs' : DirFS) (e : HEntry)
    (h : Hybrid.put s fs key value = .ok (s', fs', e)) :
    (e = .memory { data := value, byte_len := value.length } ∧ fs' = fs ∧
      s' = { s with memory_limits := s.memory_limits.incr value.length } ∧
      s.memory_limits.evaluate value.length = .limitSatisfied)
    ∨ (e = .disk { path := key, byte_len := value.length } ∧ fs' = fs.write key value ∧
      s' = { s with disk_limits := s.disk_limits.incr value.length } ∧
      s.memory_limits.evaluate value.length ≠ .limitSatisfied ∧
      s.disk_limits.evaluate value.length = .limitSatisfied) := by
  by_cases hm : (s.memory_limits.evaluate value.length).is_satisfied = true
  · left
    simp only [Hybrid.put, hm, if_true, Except.ok.injEq, Prod.mk.injEq] at h
    refine ⟨h.2.2.symm, h.2.1.symm, h.1.symm, ?_⟩
    revert hm
    cases s.memory_limits.evaluate value.length <;>
      simp [LimitEvaluation.is_satisfied]
  · have hm' : s.memory_limits.evaluate value.length ≠ .limitSatisfied := by
      revert hm
      cases s.memory_limits.evaluate value.length <;>
        simp [LimitEvaluation.is_satisfied]
    simp only [Bool.not_eq_true] at hm
    right
    cases hd : s.disk_limits.evaluate value.length with
    | limitSatisfied =>
      simp only [Hybrid.put, hm, Bool.false_eq_true, if_false, hd,
        Except.ok.injEq, Prod.mk.injEq] at h
      exact ⟨h.2.2.symm, h.2.1.symm, h.1.symm, hm', rfl⟩
    | limitExceeded kind =>
      cases kind <;>
        simp only [Hybrid.put, hm, Bool.false_eq_true, if_false, hd] at h <;>
        exact absurd h (by simp)

/-! ## C4: hybrid put tier order -/

/-- C4: `Hybrid::put` evaluates memory-tier fit first: if the memory tier is
satisfied it stores the bytes in memory and returns a Memory entry without
touching the filesystem; otherwise, if the disk tier is satisfied, it writes
the payload to the file named by the key and returns a Disk entry; otherwise
it fails with LimitExceeded whose kind names the disk tier's failing dimension
(bytes or entries) and never a memory-tier kind. -/
theorem c4_hybrid_put_tier_order (s : Hybrid) (fs : DirFS) (key : String) (value : Bytes) :
    (s.memory_limits.evaluate value.length = .limitSatisfied →
      Hybrid.put s fs key value =
        .ok ({ s with memory_limits := s.memory_limits.incr value.length }, fs,
             .memory { data := value, byte_len := value.length }))
    ∧ (s.memory_limits.evaluate value.length ≠ .limitSatisfied →
       s.disk_limits.evaluate value.length = .limitSatisfied →
      Hybrid.put s fs key value =
        .ok ({ s with disk_limits := s.disk_limits.incr value.length },
             fs.write key value, .disk { path := key, byte_len := value.length }))
    ∧ (s.memory_limits.evaluate value.length ≠ .limitSatisfied →
       s.disk_limits.evaluate value.length = .limitExceeded .bytes →
      Hybrid.put s fs key value = .error (.limitExceeded LIMIT_KIND_BYTE_DISK))
    ∧ (s.memory_limits.evaluate value.length ≠ .limitSatisfied →
       s.disk_limits.evaluate value.length = .limitExceeded .entries →
      Hybrid.put s fs key value = .error (.limitExceeded LIMIT_KIND_ENTRY_DISK))
    ∧ LIMIT_KIND_BYTE_DISK ≠ LIMIT_KIND_BYTE ∧ LIMIT_KIND_BYTE_DISK ≠ LIMIT_KIND_ENTRY
    ∧ LIMIT_KIND_ENTRY_DISK ≠ LIMIT_KIND_BYTE ∧ LIMIT_KIND_ENTRY_DISK ≠ LIMIT_KIND_ENTRY := by
  have hsat : ∀ ev : LimitEvaluation, ev ≠ .limitSatisfied → ev.is_satisfied = false := by
    intro ev h
    cases ev <;> simp [LimitEvaluation.is_satisfied] at h ⊢
  refine ⟨?_, ?_, ?_, ?_, by decide, by decide, by decide, by decide⟩
  · intro hm
    simp [Hybrid.put, hm, LimitEvaluation.is_satisfied]
  · intro hm hd
    simp [Hybrid.put, hsat _ hm, hd]
  · intro hm hd
    simp [Hybrid.put, hsat _ hm, hd]
  · intro hm hd
    simp [Hybrid.put, hsat _ hm, hd]

/-- Witness for C4: a concrete put that spills to disk (memory byte limit 0,
unlimited disk tier). -/
theorem c4_hybrid_put_tier_order_witness :
    Hybrid.put ⟨⟨some 0, none, 0, 0⟩, ⟨none, none, 0, 0⟩⟩ ⟨[], []⟩ "k" [5] =
      .ok (⟨⟨some 0, none, 0, 0⟩, ⟨none, none, 1, 1⟩⟩, ⟨[⟨"k", [5], true⟩], []⟩,
           .disk ⟨"k", 1⟩) := by
  have h := (c4_hybrid_put_tier_order ⟨⟨some 0, none, 0, 0⟩, ⟨none, none, 0, 0⟩⟩
      ⟨[], []⟩ "k" [5]).2.1 (by decide) (by decide)
  rw [h]
  decide

/-! ## C2: limit dimension checks -/

/-- C2 counterexample: the hybrid memory tier has byte limit 100 and entry
limit 1 and already holds one 3-byte entry (state reached by the first put
shown); the second put fits the byte budget but would cross the entry budget,
yet it is accepted instead of rejected with an entries-dimension
LimitExceeded, because `Limits::evaluate` consults the entry limit only when
no byte limit is configured. -/
theorem c2_independent_limits_counterexample :
    Hybrid.put ⟨⟨some 100, some 1, 0, 0⟩, ⟨none, none, 0, 0⟩⟩ ⟨[], []⟩ "a" [0, 0, 0]
      = .ok (⟨⟨some 100, some 1, 3, 1⟩, ⟨none, none, 0, 0⟩⟩, ⟨[], []⟩,
             .memory ⟨[0, 0, 0], 3⟩)
    ∧ Hybrid.put ⟨⟨some 100, some 1, 3, 1⟩, ⟨none, none, 0, 0⟩⟩ ⟨[], []⟩ "b" [0, 0, 0]
      = .ok (⟨⟨some 100, some 1, 6, 2⟩, ⟨none, none, 0, 0⟩⟩, ⟨[], []⟩,
             .memory ⟨[0, 0, 0], 3⟩) :=
  ⟨by decide, by decide⟩

/-- C2 amended: `Memory::put` and `Disk::put` check the byte and entry
dimensions independently and reject with the corresponding limit kind
(entries-dimension rejection in particular when the bytes fit but the entry
budget would be crossed); the hybrid tiers' shared `Limits::evaluate` instead
checks the byte dimension whenever a byte limit is configured and consults the
entry dimension only when no byte limit is configured, so a candidate that
fits a configured byte budget is declared satisfied even if it would cross the
entry budget. -/
theorem c2_independent_limits_amended :
    (∀ (s : Memory) (key : String) (value : Bytes),
      crossesLimit s.byte_limit (s.current_byte_count + value.length) = false →
      crossesLimit s.entry_limit (s.current_entry_count + 1) = true →
      Memory.put s key value = .error (.limitExceeded LIMIT_KIND_ENTRY))
    ∧ (∀ (s : Memory) (key : String) (value : Bytes),
      crossesLimit s.byte_limit (s.current_byte_count + value.length) = true →
      Memory.put s key value = .error (.limitExceeded LIMIT_KIND_BYTE))
    ∧ (∀ (s : Disk) (fs : DirFS) (key : String) (value : Bytes),
      crossesLimit s.byte_limit (s.current_byte_count + value.length) = false →
      crossesLimit s.entry_limit (s.current_entry_count + 1) = true →
      Disk.put s fs key value = .error (.limitExceeded LIMIT_KIND_ENTRY))
    ∧ (∀ (s : Disk) (fs : DirFS) (key : String) (value : Bytes),
      crossesLimit s.byte_limit (s.current_byte_count + value.length) = true →
      Disk.put s fs key value = .error (.limitExceeded LIMIT_KIND_BYTE))
    ∧ (∀ (l : Limits) (size : Nat) (b : Nat), l.byte_limit = some b →
        (b : Int) < l.current_byte_count + size →
        l.evaluate size = .limitExceeded .bytes)
    ∧ (∀ (l : Limits) (size : Nat) (b : Nat), l.byte_limit = some b →
        ¬ (b : Int) < l.current_byte_count + size →
        l.evaluate size = .limitSatisfied)
    ∧ (∀ (l : Limits) (size : Nat) (n : Nat), l.byte_limit = none →
        l.entry_limit = some n →
        (n : Int) < l.current_entry_count + 1 →
        l.evaluate size = .limitExceeded .entries) := by
  refine ⟨?_, ?_, ?_, ?_, ?_, ?_, ?_⟩
  · intro s key value hb he
    simp [Memory.put, hb, he]
  · intro s key value hb
    simp [Memory.put, hb]
  · intro s fs key value hb he
    simp [Disk.put, hb, he]
  · intro s fs key value hb
    simp [Disk.put, hb]
  · intro l size b hb hlt
    simp [Limits.evaluate, hb, hlt]
  · intro l size b hb hlt
    simp [Limits.evaluate, hb, hlt]
  · intro l size n hb hn hlt
    simp [Limits.evaluate, hb, hn, hlt]

/-- Witness for the amended C2: a memory strategy with byte limit 10 and entry
limit 1 holding one 3-byte entry rejects a 3-byte put with the entries kind. -/
theorem c2_independent_limits_witness :
    Memory.put ⟨some 10, some 1, 3, 1⟩ "k" [0, 0, 0]
      = .error (.limitExceeded LIMIT_KIND_ENTRY) :=
  c2_independent_limits_amended.1 ⟨some 10, some 1, 3, 1⟩ "k" [0, 0, 0]
    (by decide) (by decide)

/-! ## C3: counter invariants -/

/-- C3 counterexample: the hybrid disk tier has byte limit 100 and entry limit
1 and already holds one 3-byte entry; an accepted 3-byte put (memory tier
full) pushes the disk tier's entry count to 2, past its configured entry
limit of 1. -/
theorem c3_counters_counterexample :
    Hybrid.put ⟨⟨some 0, none, 0, 0⟩, ⟨some 100, some 1, 3, 1⟩⟩
        ⟨[⟨"a", [0, 0, 0], true⟩], []⟩ "b" [0, 0, 0]
      = .ok (⟨⟨some 0, none, 0, 0⟩, ⟨some 100, some 1, 6, 2⟩⟩,
             ⟨[⟨"a", [0, 0, 0], true⟩, ⟨"b", [0, 0, 0], true⟩], []⟩,
             .disk ⟨"b", 3⟩) := by decide

theorem memBytes_nonneg (es : List MemoryEntry) : 0 ≤ memBytes es := by
  induction es with
  | nil => simp [memBytes]
  | cons e rest ih =>
    simp only [memBytes]
    omega

theorem diskBytes_nonneg (es : List DiskEntry) : 0 ≤ diskBytes es := by
  induction es with
  | nil => simp [diskBytes]
  | cons e rest ih =>
    simp only [diskBytes]
    omega

theorem hMemBytes_nonneg (es : List HEntry) : 0 ≤ hMemBytes es := by
  induction es with
  | nil => simp [hMemBytes]
  | cons e rest ih => cases e <;> simp only [hMemBytes] <;> omega

theorem hMemCount_nonneg (es : List HEntry) : 0 ≤ hMemCount es := by
  induction es with
  | nil => simp [hMemCount]
  | cons e rest ih => cases e <;> simp only [hMemCount] <;> omega

theorem hDiskBytes_nonneg (es : List HEntry) : 0 ≤ hDiskBytes es := by
  induction es with
  | nil => simp [hDiskBytes]
  | cons e rest ih => cases e <;> simp only [hDiskBytes] <;> omega

theorem hDiskCount_nonneg (es : List HEntry) : 0 ≤ hDiskCount es := by
  induction es with
  | nil => simp [hDiskCount]
  | cons e rest ih => cases e <;> simp only [hDiskCount] <;> omega

theorem memBytes_append (l1 l2 : List MemoryEntry) :
    memBytes (l1 ++ l2) = memBytes l1 + memBytes l2 := by
  induction l1 with
  | nil => simp [memBytes]
  | cons e rest ih =>
    simp [memBytes, ih]
    try ring

theorem diskBytes_append (l1 l2 : List DiskEntry) :
    diskBytes (l1 ++ l2) = diskBytes l1 + diskBytes l2 := by
  induction l1 with
  | nil => simp [diskBytes]
  | cons e rest ih =>
    simp [diskBytes, ih]
    try ring

theorem hMemBytes_append (l1 l2 : List HEntry) :
    hMemBytes (l1 ++ l2) = hMemBytes l1 + hMemBytes l2 := by
  induction l1 with
  | nil => simp [hMemBytes]
  | cons e rest ih =>
    cases e <;> (simp [hMemBytes, ih]; try ring)

theorem hMemCount_append (l1 l2 : List HEntry) :
    hMemCount (l1 ++ l2) = hMemCount l1 + hMemCount l2 := by
  induction l1 with
  | nil => simp [hMemCount]
  | cons e rest ih =>
    cases e <;> (simp [hMemCount, ih]; try ring)

theorem hDiskBytes_append (l1 l2 : List HEntry) :
    hDiskBytes (l1 ++ l2) = hDiskBytes l1 + hDiskBytes l2 := by
  induction l1 with
  | nil => simp [hDiskBytes]
  | cons e rest ih =>
    cases e <;> (simp [hDiskBytes, ih]; try ring)

theorem hDiskCount_append (l1 l2 : List HEntry) :
    hDiskCount (l1 ++ l2) = hDiskCount l1 + hDiskCount l2 := by
  induction l1 with
  | nil => simp [hDiskCount]
  | cons e rest ih =>
    cases e <;> (simp [hDiskCount, ih]; try ring)

/-! ## Counter-preservation lemmas per strategy operation -/

theorem memory_put_preserves (s : Memory) (es : List MemoryEntry) (key : String)
    (value : Bytes) (s' : Memory) (e : MemoryEntry)
    (hinv : MemoryInv s es) (h : Memory.put s key value = .ok (s', e)) :
    MemoryInv s' (e :: es) ∧
    (∀ b, s.byte_limit = some b → s'.current_byte_count ≤ (b : Int)) ∧
    (∀ n, s.entry_limit = some n → s'.current_entry_count ≤ (n : Int)) := by
  obtain ⟨he, hs, hb, hen⟩ := memory_put_ok s key value s' e h
  subst he hs
  obtain ⟨h1, h2⟩ := hinv
  refine ⟨⟨?_, ?_⟩, ?_, ?_⟩
  · show s.current_byte_count + (value.length : Int) = memBytes _
    simp only [memBytes]
    omega
  · show s.current_entry_count + 1 = _
    simp only [List.length_cons]
    push_cast
    omega
  · intro b hbl
    rw [hbl] at hb
    simp only [crossesLimit, decide_eq_false_iff_not, not_lt] at hb
    show s.current_byte_count + (value.length : Int) ≤ (b : Int)
    omega
  · intro n hnl
    rw [hnl] at hen
    simp only [crossesLimit, decide_eq_false_iff_not, not_lt] at hen
    show s.current_entry_count + 1 ≤ (n : Int)
    omega

theorem memory_take_preserves (s : Memory) (pre post : List MemoryEntry)
    (e : MemoryEntry) (s' : Memory) (d : Bytes)
    (hinv : MemoryInv s (pre ++ e :: post))
    (h : Memory.take s e = .ok (s', d)) :
    MemoryInv s' (pre ++ post) := by
  simp only [Memory.take, Except.ok.injEq, Prod.mk.injEq] at h
  obtain ⟨hs, -⟩ := h
  subst hs
  obtain ⟨h1, h2⟩ := hinv
  rw [memBytes_append] at h1
  simp only [memBytes] at h1
  rw [List.length_append, List.length_cons] at h2
  push_cast at h2
  constructor
  · show s.current_byte_count - (e.byte_len : Int) = _
    rw [memBytes_append]
    omega
  · show s.current_entry_count - 1 = _
    rw [List.length_append]
    push_cast
    omega

theorem memory_delete_preserves (s : Memory) (pre post : List MemoryEntry)
    (e : MemoryEntry) (s' : Memory)
    (hinv : MemoryInv s (pre ++ e :: post))
    (h : Memory.delete s e = .ok s') :
    MemoryInv s' (pre ++ post) := by
  apply memory_take_preserves s pre post e s' e.data hinv
  simp only [Memory.delete, Memory.take, Except.map, Except.ok.injEq] at h
  subst h
  rfl

theorem disk_put_preserves (s : Disk) (es : List DiskEntry) (fs : DirFS)
    (key : String) (value : Bytes) (s' : Disk) (fs' : DirFS) (e : DiskEntry)
    (hinv : DiskInv s es) (h : Disk.put s fs key value = .ok (s', fs', e)) :
    DiskInv s' (e :: es) ∧
    (∀ b, s.byte_limit = some b → s'.current_byte_count ≤ (b : Int)) ∧
    (∀ n, s.entry_limit = some n → s'.current_entry_count ≤ (n : Int)) := by
  obtain ⟨he, hfs, hs, hb, hen⟩ := disk_put_ok s fs key value s' fs' e h
  subst he hs
  obtain ⟨h1, h2⟩ := hinv
  refine ⟨⟨?_, ?_⟩, ?_, ?_⟩
  · show s.current_byte_count + (value.length : Int) = diskBytes _
    simp only [diskBytes]
    omega
  · show s.current_entry_count + 1 = _
    simp only [List.length_cons]
    push_cast
    omega
  · intro b hbl
    rw [hbl] at hb
    simp only [crossesLimit, decide_eq_false_iff_not, not_lt] at hb
    show s.current_byte_count + (value.length : Int) ≤ (b : Int)
    omega
  · intro n hnl
    rw [hnl] at hen
    simp only [crossesLimit, decide_eq_false_iff_not, not_lt] at hen
    show s.current_entry_count + 1 ≤ (n : Int)
    omega

/-- A successful `Disk::delete` decrements the counters by the removed
entry's recorded size. -/
theorem disk_delete_ok (s : Disk) (fs : DirFS) (e : DiskEntry) (s' : Disk)
    (fs' : DirFS) (h : Disk.delete s fs e = .ok (s', fs')) :
    s' = { s with
            current_byte_count := s.current_byte_count - e.byte_len,
            current_entry_count := s.current_entry_count - 1 } := by
  unfold Disk.delete at h
  cases hr : fs.remove e.path with
  | error err => rw [hr] at h; simp at h
  | ok fs2 =>
    rw [hr] at h
    simp only [Except.ok.injEq, Prod.mk.injEq] at h
    exact h.1.symm

theorem disk_delete_preserves (s : Disk) (pre post : List DiskEntry)
    (e : DiskEntry) (fs : DirFS) (s' : Disk) (fs' : DirFS)
    (hinv : DiskInv s (pre ++ e :: post))
    (h : Disk.delete s fs e = .ok (s', fs')) :
    DiskInv s' (pre ++ post) := by
  rw [disk_delete_ok s fs e s' fs' h]
  obtain ⟨h1, h2⟩ := hinv
  rw [diskBytes_append] at h1
  simp only [diskBytes] at h1
  rw [List.length_append, List.length_cons] at h2
  push_cast at h2
  constructor
  · show s.current_byte_count - (e.byte_len : Int) = _
    rw [diskBytes_append]
    omega
  · show s.current_entry_count - 1 = _
    rw [List.length_append]
    push_cast
    omega

theorem disk_take_preserves (s : Disk) (pre post : List DiskEntry)
    (e : DiskEntry) (fs : DirFS) (s' : Disk) (fs' : DirFS) (d : Bytes)
    (hinv : DiskInv s (pre ++ e :: post))
    (h : Disk.take s fs e = .ok (s', fs', d)) :
    DiskInv s' (pre ++ post) := by
  unfold Disk.take at h
  cases hr : fs.read e.path with
  | error err => rw [hr] at h; simp at h
  | ok data =>
    rw [hr] at h
    cases hd : Disk.delete s fs e with
    | error err => rw [hd] at h; simp at h
    | ok pr =>
      obtain ⟨s2, fs2⟩ := pr
      rw [hd] at h
      simp only [Except.ok.injEq, Prod.mk.injEq] at h
      obtain ⟨hs, hfs, -⟩ := h
      rw [← hs]
      exact disk_delete_preserves s pre post e fs s2 fs2 hinv hd

theorem diskRecoverLoop_preserves (rk : String → Option String) (todo : List FileRec) :
    ∀ (s : Disk) (es : List DiskEntry), DiskInv s es →
      ∃ extra : List DiskEntry,
        DiskInv (diskRecoverLoop s rk todo).1 (es ++ extra) ∧
        ∀ pairs, (diskRecoverLoop s rk todo).2.2.2 = .ok pairs →
          extra = pairs.map Prod.snd := by
  induction todo with
  | nil =>
    intro s es hinv
    refine ⟨[], by simpa [diskRecoverLoop] using hinv, ?_⟩
    intro pairs hp
    simp only [diskRecoverLoop, Except.ok.injEq] at hp
    simp [← hp]
  | cons fl rest ih =>
    intro s es hinv
    cases hrk : rk fl.name with
    | none =>
      obtain ⟨extra, hA, hC⟩ := ih s es hinv
      rcases hrec : diskRecoverLoop s rk rest with ⟨s2, keep, lost, res⟩
      rw [hrec] at hA hC
      refine ⟨extra, ?_, ?_⟩
      · simpa [diskRecoverLoop, hrk, hrec] using hA
      · intro pairs hp
        apply hC
        simpa [diskRecoverLoop, hrk, hrec] using hp
    | some key =>
      by_cases hrd : fl.readable
      · have hinv1 : DiskInv
            { s with
               current_byte_count := s.current_byte_count + fl.content.length,
               current_entry_count := s.current_entry_count + 1 }
            (es ++ [⟨fl.name, fl.content.length⟩]) := by
          obtain ⟨h1, h2⟩ := hinv
          constructor
          · show s.current_byte_count + (fl.content.length : Int) = _
            rw [diskBytes_append]
            simp only [diskBytes]
            omega
          · show s.current_entry_count + 1 = _
            simp only [List.length_append, List.length_cons, List.length_nil]
            push_cast
            omega
        obtain ⟨extra, hA, hC⟩ := ih _ _ hinv1
        rcases hrec : diskRecoverLoop
            { s with
               current_byte_count := s.current_byte_count + fl.content.length,
               current_entry_count := s.current_entry_count + 1 } rk rest with
          ⟨s2, keep, lost, res⟩
        rw [hrec] at hA hC
        refine ⟨⟨fl.name, fl.content.length⟩ :: extra, ?_, ?_⟩
        · have : es ++ ⟨fl.name, fl.content.length⟩ :: extra =
              (es ++ [⟨fl.name, fl.content.length⟩]) ++ extra := by simp
          rw [this]
          simpa [diskRecoverLoop, hrk, hrd, hrec] using hA
        · intro pairs hp
          simp only [diskRecoverLoop, hrk, hrd, if_true, hrec] at hp
          cases res with
          | error err => simp [Except.map] at hp
          | ok pairs0 =>
            simp only [Except.map, Except.ok.injEq] at hp
            rw [← hp]
            simp only [List.map_cons]
            rw [hC pairs0 rfl]
      · refine ⟨[], ?_, ?_⟩
        · simpa [diskRecoverLoop, hrk, hrd] using hinv
        · intro pairs hp
          simp [diskRecoverLoop, hrk, hrd] at hp

theorem disk_recover_preserves (s : Disk) (fs : DirFS) (rk : String → Option String)
    (es : List DiskEntry) (hinv : DiskInv s es) :
    ∃ extra : List DiskEntry,
      DiskInv (Disk.recover s fs rk).1 (es ++ extra) ∧
      ∀ pairs, (Disk.recover s fs rk).2.2 = .ok pairs → extra = pairs.map Prod.snd := by
  obtain ⟨extra, hA, hC⟩ := diskRecoverLoop_preserves rk fs.files s es hinv
  rcases hrec : diskRecoverLoop s rk fs.files with ⟨s2, keep, lost, res⟩
  rw [hrec] at hA hC
  refine ⟨extra, ?_, ?_⟩
  · simpa [Disk.recover, hrec] using hA
  · intro pairs hp
    apply hC
    simpa [Disk.recover, hrec] using hp

/-- A satisfied evaluation respects a configured byte limit. -/
theorem evaluate_satisfied_byte (l : Limits) (size : Nat) (b : Nat)
    (h : l.evaluate size = .limitSatisfied) (hb : l.byte_limit = some b) :
    l.current_byte_count + size ≤ b := by
  unfold Limits.evaluate at h
  rw [hb] at h
  by_cases hlt : (b : Int) < l.current_byte_count + size
  · simp [hlt] at h
  · omega

/-- With no byte limit configured, a satisfied evaluation respects a
configured entry limit. -/
theorem evaluate_satisfied_entry (l : Limits) (size : Nat) (n : Nat)
    (h : l.evaluate size = .limitSatisfied) (hb : l.byte_limit = none)
    (hn : l.entry_limit = some n) :
    l.current_entry_count + 1 ≤ n := by
  unfold Limits.evaluate at h
  rw [hb, hn] at h
  by_cases hlt : (n : Int) < l.current_entry_count + 1
  · simp [hlt] at h
  · omega

theorem hybrid_put_preserves (s : Hybrid) (es : List HEntry) (fs : DirFS)
    (key : String) (value : Bytes) (s' : Hybrid) (fs' : DirFS) (e : HEntry)
    (hinv : HybridInv s es) (h : Hybrid.put s fs key value = .ok (s', fs', e)) :
    HybridInv s' (e :: es) ∧
    (∀ me, e = .memory me →
      (∀ b, s.memory_limits.byte_limit = some b →
        s'.memory_limits.current_byte_count ≤ (b : Int)) ∧
      (∀ n, s.memory_limits.byte_limit = none →
        s.memory_limits.entry_limit = some n →
        s'.memory_limits.current_entry_count ≤ (n : Int)))
    ∧ (∀ de, e = .disk de →
      (∀ b, s.disk_limits.byte_limit = some b →
        s'.disk_limits.current_byte_count ≤ (b : Int)) ∧
      (∀ n, s.disk_limits.byte_limit = none →
        s.disk_limits.entry_limit = some n →
        s'.disk_limits.current_entry_count ≤ (n : Int))) := by
  obtain ⟨h1, h2, h3, h4⟩ := hinv
  rcases hybrid_put_ok s fs key value s' fs' e h with
    ⟨he, hfs, hs, hm⟩ | ⟨he, hfs, hs, hmne, hd⟩
  · subst he hs
    refine ⟨⟨?_, ?_, ?_, ?_⟩, ?_, ?_⟩
    · show s.memory_limits.current_byte_count + (value.length : Int) = _
      simp only [hMemBytes]
      omega
    · show s.memory_limits.current_entry_count + 1 = _
      simp only [hMemCount]
      omega
    · show s.disk_limits.current_byte_count = _
      simpa only [hDiskBytes] using h3
    · show s.disk_limits.current_entry_count = _
      simpa only [hDiskCount] using h4
    · intro me hme
      constructor
      · intro b hb
        show s.memory_limits.current_byte_count + (value.length : Int) ≤ (b : Int)
        have := evaluate_satisfied_byte s.memory_limits value.length b hm hb
        omega
      · intro n hb hn
        show s.memory_limits.current_entry_count + 1 ≤ (n : Int)
        have := evaluate_satisfied_entry s.memory_limits value.length n hm hb hn
        omega
    · intro de hde
      simp at hde
  · subst he hs
    refine ⟨⟨?_, ?_, ?_, ?_⟩, ?_, ?_⟩
    · show s.memory_limits.current_byte_count = _
      simpa only [hMemBytes] using h1
    · show s.memory_limits.current_entry_count = _
      simpa only [hMemCount] using h2
    · show s.disk_limits.current_byte_count + (value.length : Int) = _
      simp only [hDiskBytes]
      omega
    · show s.disk_limits.current_entry_count + 1 = _
      simp only [hDiskCount]
      omega
    · intro me hme
      simp at hme
    · intro de hde
      constructor
      · intro b hb
        show s.disk_limits.current_byte_count + (value.length : Int) ≤ (b : Int)
        have := evaluate_satisfied_byte s.disk_limits value.length b hd hb
        omega
      · intro n hb hn
        show s.disk_limits.current_entry_count + 1 ≤ (n : Int)
        have := evaluate_satisfied_entry s.disk_limits value.length n hd hb hn
        omega

/-- A successful `Hybrid::take` decrements the entry's tier. -/
theorem hybrid_take_ok (s : Hybrid) (fs : DirFS) (e : HEntry) (s' : Hybrid)
    (fs' : DirFS) (d : Bytes) (h : Hybrid.take s fs e = .ok (s', fs', d)) :
    (∃ me, e = .memory me ∧
      s' = { s with memory_limits := s.memory_limits.decr me.byte_len } ∧ fs' = fs)
    ∨ (∃ de, e = .disk de ∧
      s' = { s with disk_limits := s.disk_limits.decr de.byte_len }) := by
  cases e with
  | memory me =>
    left
    simp only [Hybrid.take, Except.ok.injEq, Prod.mk.injEq] at h
    exact ⟨me, rfl, h.1.symm, h.2.1.symm⟩
  | disk de =>
    right
    refine ⟨de, rfl, ?_⟩
    simp only [Hybrid.take] at h
    cases hr : fs.read de.path with
    | error err => rw [hr] at h; simp at h
    | ok data =>
      rw [hr] at h
      cases hm : fs.remove de.path with
      | error err => rw [hm] at h; simp at h
      | ok fs2 =>
        rw [hm] at h
        simp only [Except.ok.injEq, Prod.mk.injEq] at h
        exact h.1.symm

/-- A successful `Hybrid::delete` decrements the entry's tier. -/
theorem hybrid_delete_ok (s : Hybrid) (fs : DirFS) (e : HEntry) (s' : Hybrid)
    (fs' : DirFS) (h : Hybrid.delete s fs e = .ok (s', fs')) :
    (∃ me, e = .memory me ∧
      s' = { s with memory_limits := s.memory_limits.decr me.byte_len } ∧ fs' = fs)
    ∨ (∃ de, e = .disk de ∧
      s' = { s with disk_limits := s.disk_limits.decr de.byte_len }) := by
  cases e with
  | memory me =>
    left
    simp only [Hybrid.delete, Except.ok.injEq, Prod.mk.injEq] at h
    exact ⟨me, rfl, h.1.symm, h.2.symm⟩
  | disk de =>
    right
    refine ⟨de, rfl, ?_⟩
    simp only [Hybrid.delete] at h
    cases hm : fs.remove de.path with
    | error err => rw [hm] at h; simp at h
    | ok fs2 =>
      rw [hm] at h
      simp only [Except.ok.injEq, Prod.mk.injEq] at h
      exact h.1.symm

/-- Decrementing a tier by a removed live entry preserves the hybrid
invariant. -/
theorem hybrid_removal_preserves (s : Hybrid) (pre post : List HEntry) (e : HEntry)
    (s' : Hybrid)
    (hinv : HybridInv s (pre ++ e :: post))
    (h : (∃ me, e = .memory me ∧
        s' = { s with memory_limits := s.memory_limits.decr me.byte_len })
      ∨ (∃ de, e = .disk de ∧
        s' = { s with disk_limits := s.disk_limits.decr de.byte_len })) :
    HybridInv s' (pre ++ post) := by
  obtain ⟨h1, h2, h3, h4⟩ := hinv
  rw [hMemBytes_append] at h1
  rw [hMemCount_append] at h2
  rw [hDiskBytes_append] at h3
  rw [hDiskCount_append] at h4
  rcases h with ⟨me, he, hs⟩ | ⟨de, he, hs⟩ <;> subst he hs
  · simp only [hMemBytes, hMemCount, hDiskBytes, hDiskCount] at h1 h2 h3 h4
    refine ⟨?_, ?_, ?_, ?_⟩
    · show s.memory_limits.current_byte_count - (me.byte_len : Int) = _
      rw [hMemBytes_append]
      omega
    · show s.memory_limits.current_entry_count - 1 = _
      rw [hMemCount_append]
      omega
    · show s.disk_limits.current_byte_count = _
      rw [hDiskBytes_append]
      omega
    · show s.disk_limits.current_entry_count = _
      rw [hDiskCount_append]
      omega
  · simp only [hMemBytes, hMemCount, hDiskBytes, hDiskCount] at h1 h2 h3 h4
    refine ⟨?_, ?_, ?_, ?_⟩
    · show s.memory_limits.current_byte_count = _
      rw [hMemBytes_append]
      omega
    · show s.memory_limits.current_entry_count = _
      rw [hMemCount_append]
      omega
    · show s.disk_limits.current_byte_count - (de.byte_len : Int) = _
      rw [hDiskBytes_append]
      omega
    · show s.disk_limits.current_entry_count - 1 = _
      rw [hDiskCount_append]
      omega

theorem hybrid_take_preserves (s : Hybrid) (fs : DirFS) (pre post : List HEntry)
    (e : HEntry) (s' : Hybrid) (fs' : DirFS) (d : Bytes)
    (hinv : HybridInv s (pre ++ e :: post))
    (h : Hybrid.take s fs e = .ok (s', fs', d)) :
    HybridInv s' (pre ++ post) := by
  apply hybrid_removal_preserves s pre post e s' hinv
  rcases hybrid_take_ok s fs e s' fs' d h with ⟨me, he, hs, -⟩ | ⟨de, he, hs⟩
  · exact Or.inl ⟨me, he, hs⟩
  · exact Or.inr ⟨de, he, hs⟩

theorem hybrid_delete_preserves (s : Hybrid) (fs : DirFS) (pre post : List HEntry)
    (e : HEntry) (s' : Hybrid) (fs' : DirFS)
    (hinv : HybridInv s (pre ++ e :: post))
    (h : Hybrid.delete s fs e = .ok (s', fs')) :
    HybridInv s' (pre ++ post) := by
  apply hybrid_removal_preserves s pre post e s' hinv
  rcases hybrid_delete_ok s fs e s' fs' h with ⟨me, he, hs, -⟩ | ⟨de, he, hs⟩
  · exact Or.inl ⟨me, he, hs⟩
  · exact Or.inr ⟨de, he, hs⟩

theorem hybridRecoverLoop_preserves (rk : String → Option String) (todo : List FileRec) :
    ∀ (s : Hybrid) (es : List HEntry), HybridInv s es →
      ∃ extra : List HEntry,
        HybridInv (hybridRecoverLoop s rk todo).1 (es ++ extra) ∧
        ∀ pairs, (hybridRecoverLoop s rk todo).2.2.2 = .ok pairs →
          extra = pairs.map Prod.snd := by
  induction todo with
  | nil =>
    intro s es hinv
    refine ⟨[], by simpa [hybridRecoverLoop] using hinv, ?_⟩
    intro pairs hp
    simp only [hybridRecoverLoop, Except.ok.injEq] at hp
    simp [← hp]
  | cons fl rest ih =>
    intro s es hinv
    cases hrk : rk fl.name with
    | none =>
      obtain ⟨extra, hA, hC⟩ := ih s es hinv
      rcases hrec : hybridRecoverLoop s rk rest with ⟨s2, keep, lost, res⟩
      rw [hrec] at hA hC
      refine ⟨extra, ?_, ?_⟩
      · simpa [hybridRecoverLoop, hrk, hrec] using hA
      · intro pairs hp
        apply hC
        simpa [hybridRecoverLoop, hrk, hrec] using hp
    | some key =>
      by_cases hrd : fl.readable
      · have hinv1 : HybridInv
            { s with disk_limits := s.disk_limits.incr fl.content.length }
            (es ++ [.disk ⟨fl.name, fl.content.length⟩]) := by
          obtain ⟨h1, h2, h3, h4⟩ := hinv
          refine ⟨?_, ?_, ?_, ?_⟩
          · show s.memory_limits.current_byte_count = _
            rw [hMemBytes_append]
            simp only [hMemBytes]
            omega
          · show s.memory_limits.current_entry_count = _
            rw [hMemCount_append]
            simp only [hMemCount]
            omega
          · show s.disk_limits.current_byte_count + (fl.content.length : Int) = _
            rw [hDiskBytes_append]
            simp only [hDiskBytes]
            omega
          · show s.disk_limits.current_entry_count + 1 = _
            rw [hDiskCount_append]
            simp only [hDiskCount]
            omega
        obtain ⟨extra, hA, hC⟩ := ih _ _ hinv1
        rcases hrec : hybridRecoverLoop
            { s with disk_limits := s.disk_limits.incr fl.content.length } rk rest with
          ⟨s2, keep, lost, res⟩
        rw [hrec] at hA hC
        refine ⟨.disk ⟨fl.name, fl.content.length⟩ :: extra, ?_, ?_⟩
        · have heq : es ++ HEntry.disk ⟨fl.name, fl.content.length⟩ :: extra =
              (es ++ [HEntry.disk ⟨fl.name, fl.content.length⟩]) ++ extra := by simp
          rw [heq]
          simpa [hybridRecoverLoop, hrk, hrd, hrec] using hA
        · intro pairs hp
          simp only [hybridRecoverLoop, hrk, hrd, if_true, hrec] at hp
          cases res with
          | error err => simp [Except.map] at hp
          | ok pairs0 =>
            simp only [Except.map, Except.ok.injEq] at hp
            rw [← hp]
            simp only [List.map_cons]
            rw [hC pairs0 rfl]
      · refine ⟨[], ?_, ?_⟩
        · simpa [hybridRecoverLoop, hrk, hrd] using hinv
        · intro pairs hp
          simp [hybridRecoverLoop, hrk, hrd] at hp

theorem hybrid_recover_preserves (s : Hybrid) (fs : DirFS)
    (rk : String → Option String) (es : List HEntry) (hinv : HybridInv s es) :
    ∃ extra : List HEntry,
      HybridInv (Hybrid.recover s fs rk).1 (es ++ extra) ∧
      ∀ pairs, (Hybrid.recover s fs rk).2.2 = .ok pairs →
        extra = pairs.map Prod.snd := by
  obtain ⟨extra, hA, hC⟩ := hybridRecoverLoop_preserves rk fs.files s es hinv
  rcases hrec : hybridRecoverLoop s rk fs.files with ⟨s2, keep, lost, res⟩
  rw [hrec] at hA hC
  refine ⟨extra, ?_, ?_⟩
  · simpa [Hybrid.recover, hrec] using hA
  · intro pairs hp
    apply hC
    simpa [Hybrid.recover, hrec] using hp

theorem hybrid_flush_preserves (s : Hybrid) (fs : DirFS) (key : String) (e : HEntry)
    (es : List HEntry) (s' : Hybrid) (fs' : DirFS) (r : Option HEntry)
    (hinv : HybridInv s es) (h : Hybrid.flush s fs key e = .ok (s', fs', r)) :
    (r = none → s' = s) ∧
    (∀ ne, r = some ne → HybridInv s' (ne :: es) ∧
      (∀ b, s.disk_limits.byte_limit = some b →
        s'.disk_limits.current_byte_count ≤ (b : Int)) ∧
      (∀ n, s.disk_limits.byte_limit = none → s.disk_limits.entry_limit = some n →
        s'.disk_limits.current_entry_count ≤ (n : Int))) := by
  obtain ⟨h1, h2, h3, h4⟩ := hinv
  cases e with
  | disk de =>
    simp only [Hybrid.flush, Except.ok.injEq, Prod.mk.injEq] at h
    obtain ⟨hs, -, hr⟩ := h
    refine ⟨fun _ => hs.symm, ?_⟩
    intro ne hne
    rw [← hr] at hne
    simp at hne
  | memory me =>
    simp only [Hybrid.flush] at h
    cases hd : s.disk_limits.evaluate me.byte_len with
    | limitSatisfied =>
      rw [hd] at h
      simp only [Except.ok.injEq, Prod.mk.injEq] at h
      obtain ⟨hs, -, hr⟩ := h
      constructor
      · intro h0
        rw [← hr] at h0
        simp at h0
      · intro ne hne
        rw [← hr] at hne
        simp only [Option.some.injEq] at hne
        subst hne
        rw [← hs]
        refine ⟨⟨?_, ?_, ?_, ?_⟩, ?_, ?_⟩
        · show s.memory_limits.current_byte_count = _
          simpa only [hMemBytes] using h1
        · show s.memory_limits.current_entry_count = _
          simpa only [hMemCount] using h2
        · show s.disk_limits.current_byte_count + (me.byte_len : Int) = _
          simp only [hDiskBytes]
          omega
        · show s.disk_limits.current_entry_count + 1 = _
          simp only [hDiskCount]
          omega
        · intro b hb
          show s.disk_limits.current_byte_count + (me.byte_len : Int) ≤ (b : Int)
          have := evaluate_satisfied_byte s.disk_limits me.byte_len b hd hb
          omega
        · intro n hb hn
          show s.disk_limits.current_entry_count + 1 ≤ (n : Int)
          have := evaluate_satisfied_entry s.disk_limits me.byte_len n hd hb hn
          omega
    | limitExceeded kind =>
      cases kind <;> rw [hd] at h <;> simp at h

/-- C3 (amended): for every strategy the counters equal the aggregates of the
live entries, so they never go negative: the invariant is preserved by put,
take, delete, recover and flush (get performs no counter update).  Accepted
writes never push a checked dimension past its configured limit; for Memory
and Disk both dimensions are checked, while for a hybrid tier the byte
dimension is checked whenever a byte limit is configured and the entry
dimension only when no byte limit is configured on that tier (the
counterexample shows the entry limit of a byte-limited hybrid tier can be
passed). -/
theorem c3_counters_amended :
    (∀ (s : Memory) (es : List MemoryEntry), MemoryInv s es →
      0 ≤ s.current_byte_count ∧ 0 ≤ s.current_entry_count)
    ∧ (∀ (s : Memory) (es : List MemoryEntry) (key : String) (value : Bytes)
        (s' : Memory) (e : MemoryEntry),
        MemoryInv s es → Memory.put s key value = .ok (s', e) →
        MemoryInv s' (e :: es) ∧
        (∀ b, s.byte_limit = some b → s'.current_byte_count ≤ (b : Int)) ∧
        (∀ n, s.entry_limit = some n → s'.current_entry_count ≤ (n : Int)))
    ∧ (∀ (s : Memory) (pre post : List MemoryEntry) (e : MemoryEntry)
        (s' : Memory) (d : Bytes),
        MemoryInv s (pre ++ e :: post) → Memory.take s e = .ok (s', d) →
        MemoryInv s' (pre ++ post))
    ∧ (∀ (s : Memory) (pre post : List MemoryEntry) (e : MemoryEntry) (s' : Memory),
        MemoryInv s (pre ++ e :: post) → Memory.delete s e = .ok s' →
        MemoryInv s' (pre ++ post))
    ∧ (∀ (s : Disk) (es : List DiskEntry), DiskInv s es →
      0 ≤ s.current_byte_count ∧ 0 ≤ s.current_entry_count)
    ∧ (∀ (s : Disk) (es : List DiskEntry) (fs : DirFS) (key : String)
        (value : Bytes) (s' : Disk) (fs' : DirFS) (e : DiskEntry),
        DiskInv s es → Disk.put s fs key value = .ok (s', fs', e) →
        DiskInv s' (e :: es) ∧
        (∀ b, s.byte_limit = some b → s'.current_byte_count ≤ (b : Int)) ∧
        (∀ n, s.entry_limit = some n → s'.current_entry_count ≤ (n : Int)))
    ∧ (∀ (s : Disk) (pre post : List DiskEntry) (e : DiskEntry) (fs : DirFS)
        (s' : Disk) (fs' : DirFS) (d : Bytes),
        DiskInv s (pre ++ e :: post) → Disk.take s fs e = .ok (s', fs', d) →
        DiskInv s' (pre ++ post))
    ∧ (∀ (s : Disk) (pre post : List DiskEntry) (e : DiskEntry) (fs : DirFS)
        (s' : Disk) (fs' : DirFS),
        DiskInv s (pre ++ e :: post) → Disk.delete s fs e = .ok (s', fs') →
        DiskInv s' (pre ++ post))
    ∧ (∀ (s : Disk) (fs : DirFS) (rk : String → Option String) (es : List DiskEntry),
        DiskInv s es →
        ∃ extra : List DiskEntry,
          DiskInv (Disk.recover s fs rk).1 (es ++ extra) ∧
          ∀ pairs, (Disk.recover s fs rk).2.2 = .ok pairs →
            extra = pairs.map Prod.snd)
    ∧ (∀ (s : Hybrid) (es : List HEntry), HybridInv s es →
      0 ≤ s.memory_limits.current_byte_count ∧
      0 ≤ s.memory_limits.current_entry_count ∧
      0 ≤ s.disk_limits.current_byte_count ∧
      0 ≤ s.disk_limits.current_entry_count)
    ∧ (∀ (s : Hybrid) (es : List HEntry) (fs : DirFS) (key : String)
        (value : Bytes) (s' : Hybrid) (fs' : DirFS) (e : HEntry),
        HybridInv s es → Hybrid.put s fs key value = .ok (s', fs', e) →
        HybridInv s' (e :: es) ∧
        (∀ me, e = .memory me →
          (∀ b, s.memory_limits.byte_limit = some b →
            s'.memory_limits.current_byte_count ≤ (b : Int)) ∧
          (∀ n, s.memory_limits.byte_limit = none →
            s.memory_limits.entry_limit = some n →
            s'.memory_limits.current_entry_count ≤ (n : Int)))
        ∧ (∀ de, e = .disk de →
          (∀ b, s.disk_limits.byte_limit = some b →
            s'.disk_limits.current_byte_count ≤ (b : Int)) ∧
          (∀ n, s.disk_limits.byte_limit = none →
            s.disk_limits.entry_limit = some n →
            s'.disk_limits.current_entry_count ≤ (n : Int))))
    ∧ (∀ (s : Hybrid) (fs : DirFS) (pre post : List HEntry) (e : HEntry)
        (s' : Hybrid) (fs' : DirFS) (d : Bytes),
        HybridInv s (pre ++ e :: post) → Hybrid.take s fs e = .ok (s', fs', d) →
        HybridInv s' (pre ++ post))
    ∧ (∀ (s : Hybrid) (fs : DirFS) (pre post : List HEntry) (e : HEntry)
        (s' : Hybrid) (fs' : DirFS),
        HybridInv s (pre ++ e :: post) → Hybrid.delete s fs e = .ok (s', fs') →
        HybridInv s' (pre ++ post))
    ∧ (∀ (s : Hybrid) (fs : DirFS) (rk : String → Option String) (es : List HEntry),
        HybridInv s es →
        ∃ extra : List HEntry,
          HybridInv (Hybrid.recover s fs rk).1 (es ++ extra) ∧
          ∀ pairs, (Hybrid.recover s fs rk).2.2 = .ok pairs →
            extra = pairs.map Prod.snd)
    ∧ (∀ (s : Hybrid) (fs : DirFS) (key : String) (e : HEntry) (es : List HEntry)
        (s' : Hybrid) (fs' : DirFS) (r : Option HEntry),
        HybridInv s es → Hybrid.flush s fs key e = .ok (s', fs', r) →
        (r = none → s' = s) ∧
        (∀ ne, r = some ne → HybridInv s' (ne :: es) ∧
          (∀ b, s.disk_limits.byte_limit = some b →
            s'.disk_limits.current_byte_count ≤ (b : Int)) ∧
          (∀ n, s.disk_limits.byte_limit = none →
            s.disk_limits.entry_limit = some n →
            s'.disk_limits.current_entry_count ≤ (n : Int)))) := by
  refine ⟨?_, memory_put_preserves, memory_take_preserves, memory_delete_preserves,
    ?_, disk_put_preserves, disk_take_preserves, disk_delete_preserves,
    disk_recover_preserves, ?_, hybrid_put_preserves, hybrid_take_preserves,
    hybrid_delete_preserves, hybrid_recover_preserves, hybrid_flush_preserves⟩
  · intro s es hinv
    constructor
    · rw [hinv.1]
      exact memBytes_nonneg es
    · rw [hinv.2]
      exact Int.natCast_nonneg _
  · intro s es hinv
    constructor
    · rw [hinv.1]
      exact diskBytes_nonneg es
    · rw [hinv.2]
      exact Int.natCast_nonneg _
  · intro s es hinv
    obtain ⟨h1, h2, h3, h4⟩ := hinv
    refine ⟨?_, ?_, ?_, ?_⟩
    · rw [h1]; exact hMemBytes_nonneg es
    · rw [h2]; exact hMemCount_nonneg es
    · rw [h3]; exact hDiskBytes_nonneg es
    · rw [h4]; exact hDiskCount_nonneg es

/-- Witness for the amended C3: the memory-put preservation conjunct applied
at a concrete state (byte limit 10, entry limit 5, one stored 2-byte value). -/
theorem c3_counters_amended_witness :
    MemoryInv ⟨some 10, some 5, 2, 1⟩ [⟨[7, 8], 2⟩] ∧
    (2 : Int) ≤ ((10 : Nat) : Int) ∧ (1 : Int) ≤ ((5 : Nat) : Int) := by
  have h := c3_counters_amended.2.1 ⟨some 10, some 5, 0, 0⟩ [] "k" [7, 8]
      ⟨some 10, some 5, 2, 1⟩ ⟨[7, 8], 2⟩ ⟨rfl, rfl⟩ (by decide)
  exact ⟨h.1, h.2.1 10 rfl, h.2.2 5 rfl⟩

/-! ## Round-trip machinery -/

/-- Reading a just-written file of the cache directory. -/
theorem DirFS_read_write_self (fs : DirFS) (name : String) (content : Bytes) :
    (fs.write name content).read name = .ok content :=
  readFiles_writeFiles_self fs.files name content

/-- Removing a just-written file of the cache directory. -/
theorem DirFS_remove_write_self (fs : DirFS) (name : String) (content : Bytes) :
    ∃ fs', (fs.write name content).remove name = .ok fs' := by
  obtain ⟨l', hl'⟩ := removeFiles_writeFiles_self fs.files name content
  exact ⟨{ files := l', lostFound := fs.lostFound },
    by simp [DirFS.remove, DirFS.write, hl', Except.map]⟩

/-- Unpacking a successful put through the disk `StratOps` wrapper. -/
theorem diskOps_put_ok (st : Disk × DirFS) (key : String) (v : Bytes)
    (st' : Disk × DirFS) (e : DiskEntry)
    (h : diskOps.put st key v = .ok (st', e)) :
    Disk.put st.1 st.2 key v = .ok (st'.1, st'.2, e) := by
  simp only [diskOps] at h
  cases hdp : Disk.put st.1 st.2 key v with
  | error err => rw [hdp] at h; simp [Except.map] at h
  | ok r =>
    obtain ⟨s2, fs2, e2⟩ := r
    rw [hdp] at h
    simp only [Except.map, Except.ok.injEq, Prod.mk.injEq] at h
    obtain ⟨hA, hC⟩ := h
    subst hA
    subst hC
    rfl

/-- Unpacking a successful put through the hybrid `StratOps` wrapper. -/
theorem hybridOps_put_ok (st : Hybrid × DirFS) (key : String) (v : Bytes)
    (st' : Hybrid × DirFS) (e : HEntry)
    (h : hybridOps.put st key v = .ok (st', e)) :
    Hybrid.put st.1 st.2 key v = .ok (st'.1, st'.2, e) := by
  simp only [hybridOps] at h
  cases hdp : Hybrid.put st.1 st.2 key v with
  | error err => rw [hdp] at h; simp [Except.map] at h
  | ok r =>
    obtain ⟨s2, fs2, e2⟩ := r
    rw [hdp] at h
    simp only [Except.map, Except.ok.injEq, Prod.mk.injEq] at h
    obtain ⟨hA, hC⟩ := h
    subst hA
    subst hC
    rfl

/-- Evaluating `Cache::get` once the lookup, the strategy read and the
decompression are known. -/
theorem cacheGet_eval {σ ε : Type} (ops : StratOps σ ε) (c : CacheS σ ε)
    (key : String) (e : ε) (v dv : Bytes)
    (h1 : lookupA c.data key = some e)
    (h2 : ops.get c.strategy e = .ok v)
    (h3 : c.compressor.decompress v = .ok dv) :
    cacheGet ops c key = .ok dv := by
  simp [cacheGet, h1, h2, h3]

/-- Evaluating `Cache::take` once the removal, the strategy take and the
decompression are known. -/
theorem cacheTake_eval {σ ε : Type} (ops : StratOps σ ε) (c : CacheS σ ε)
    (key : String) (e : ε) (data' : List (String × ε)) (s' : σ) (v dv : Bytes)
    (h1 : removeA c.data key = some (e, data'))
    (h2 : ops.take c.strategy e = .ok (s', v))
    (h3 : c.compressor.decompress v = .ok dv) :
    cacheTake ops c key = ({ c with data := data', strategy := s' }, .ok dv) := by
  simp [cacheTake, h1, h2, h3]

/-! ## C1: round-trip -/

/-- C1: the no-op compressor satisfies the codec contract, and for each of the
three strategies, under any contract-satisfying compressor, a successful
`Cache::put` of a value followed by `Cache::get` of the same key returns
exactly that value. -/
theorem c1_round_trip :
    Compressor.noop.RoundTrip
    ∧ (∀ (c : CacheS Memory MemoryEntry) (key : String) (value : Bytes)
        (c' : CacheS Memory MemoryEntry),
        c.compressor.RoundTrip →
        cachePut memOps c key value = (c', .ok ()) →
        cacheGet memOps c' key = .ok value)
    ∧ (∀ (c : CacheS (Disk × DirFS) DiskEntry) (key : String) (value : Bytes)
        (c' : CacheS (Disk × DirFS) DiskEntry),
        c.compressor.RoundTrip →
        cachePut diskOps c key value = (c', .ok ()) →
        cacheGet diskOps c' key = .ok value)
    ∧ (∀ (c : CacheS (Hybrid × DirFS) HEntry) (key : String) (value : Bytes)
        (c' : CacheS (Hybrid × DirFS) HEntry),
        c.compressor.RoundTrip →
        cachePut hybridOps c key value = (c', .ok ()) →
        cacheGet hybridOps c' key = .ok value) := by
  refine ⟨fun b => ⟨b, rfl, rfl⟩, ?_, ?_, ?_⟩
  · intro c key value c' hrt hput
    obtain ⟨cv, s', entry, hc, hp, hc'⟩ := cachePut_ok memOps c key value c' hput
    obtain ⟨he, -, -, -⟩ := memory_put_ok c.strategy key cv s' entry hp
    obtain ⟨cb, hcb, hdb⟩ := hrt value
    rw [hc] at hcb
    injection hcb with hcv
    subst hcv hc' he
    exact cacheGet_eval memOps _ key _ cv value (lookupA_insertA_self c.data key _)
      rfl hdb
  · intro c key value c' hrt hput
    obtain ⟨cv, st', entry, hc, hp, hc'⟩ := cachePut_ok diskOps c key value c' hput
    have hdp := diskOps_put_ok c.strategy key cv st' entry hp
    obtain ⟨he, hfs, -, -, -⟩ := disk_put_ok c.strategy.1 c.strategy.2 key cv
      st'.1 st'.2 entry hdp
    obtain ⟨cb, hcb, hdb⟩ := hrt value
    rw [hc] at hcb
    injection hcb with hcv
    subst hcv hc' he
    refine cacheGet_eval diskOps _ key _ cv value (lookupA_insertA_self c.data key _)
      ?_ hdb
    show Disk.get st'.1 st'.2 ⟨key, cv.length⟩ = .ok cv
    simp only [Disk.get, hfs]
    exact DirFS_read_write_self c.strategy.2 key cv
  · intro c key value c' hrt hput
    obtain ⟨cv, st', entry, hc, hp, hc'⟩ := cachePut_ok hybridOps c key value c' hput
    have hdp := hybridOps_put_ok c.strategy key cv st' entry hp
    obtain ⟨cb, hcb, hdb⟩ := hrt value
    rw [hc] at hcb
    injection hcb with hcv
    subst hcv hc'
    rcases hybrid_put_ok c.strategy.1 c.strategy.2 key cv st'.1 st'.2 entry hdp with
      ⟨he, hfs, -, -⟩ | ⟨he, hfs, -, -, -⟩
    · subst he
      exact cacheGet_eval hybridOps _ key _ cv value
        (lookupA_insertA_self c.data key _) rfl hdb
    · subst he
      refine cacheGet_eval hybridOps _ key _ cv value
        (lookupA_insertA_self c.data key _) ?_ hdb
      show Hybrid.get st'.1 st'.2 (.disk ⟨key, cv.length⟩) = .ok cv
      simp only [Hybrid.get, hfs]
      exact DirFS_read_write_self c.strategy.2 key cv

/-- Witness for C1: a concrete memory-strategy cache with the no-op
compressor. -/
theorem c1_round_trip_witness :
    cacheGet memOps
      { data := [("k", ⟨[1, 2, 3], 3⟩)], strategy := ⟨none, none, 3, 1⟩,
        compressor := Compressor.noop } "k" = .ok [1, 2, 3] := by
  exact c1_round_trip.2.1
    { data := [], strategy := ⟨none, none, 0, 0⟩, compressor := Compressor.noop }
    "k" [1, 2, 3]
    { data := [("k", ⟨[1, 2, 3], 3⟩)], strategy := ⟨none, none, 3, 1⟩,
      compressor := Compressor.noop }
    (fun b => ⟨b, rfl, rfl⟩) rfl

/-! ## C8: take removes -/

/-- C8: for each strategy, after a successful `Cache::put(k, v)` on a cache
with distinct map keys and a contract-satisfying compressor, `Cache::take(k)`
returns exactly v, and on the resulting state `Cache::get(k)` fails with
KeyNotFound and `Cache::exists(k)` is false. -/
theorem c8_take_removes :
    (∀ (c : CacheS Memory MemoryEntry) (key : String) (value : Bytes)
        (c' : CacheS Memory MemoryEntry),
        c.compressor.RoundTrip → (c.data.map Prod.fst).Nodup →
        cachePut memOps c key value = (c', .ok ()) →
        ∃ c'', cacheTake memOps c' key = (c'', .ok value) ∧
          cacheGet memOps c'' key = .error .keyNotFound ∧
          cacheExists c'' key = false)
    ∧ (∀ (c : CacheS (Disk × DirFS) DiskEntry) (key : String) (value : Bytes)
        (c' : CacheS (Disk × DirFS) DiskEntry),
        c.compressor.RoundTrip → (c.data.map Prod.fst).Nodup →
        cachePut diskOps c key value = (c', .ok ()) →
        ∃ c'', cacheTake diskOps c' key = (c'', .ok value) ∧
          cacheGet diskOps c'' key = .error .keyNotFound ∧
          cacheExists c'' key = false)
    ∧ (∀ (c : CacheS (Hybrid × DirFS) HEntry) (key : String) (value : Bytes)
        (c' : CacheS (Hybrid × DirFS) HEntry),
        c.compressor.RoundTrip → (c.data.map Prod.fst).Nodup →
        cachePut hybridOps c key value = (c', .ok ()) →
        ∃ c'', cacheTake hybridOps c' key = (c'', .ok value) ∧
          cacheGet hybridOps c'' key = .error .keyNotFound ∧
          cacheExists c'' key = false) := by
  refine ⟨?_, ?_, ?_⟩
  · intro c key value c' hrt hnd hput
    obtain ⟨cv, s', entry, hc, hp, hc'⟩ := cachePut_ok memOps c key value c' hput
    obtain ⟨he, -, -, -⟩ := memory_put_ok c.strategy key cv s' entry hp
    obtain ⟨cb, hcb, hdb⟩ := hrt value
    rw [hc] at hcb
    injection hcb with hcv
    subst hcv hc' he
    refine ⟨_, cacheTake_eval memOps _ key _ (eraseA c.data key) _ cv value
        (removeA_insertA c.data key _) rfl hdb, ?_, ?_⟩
    · simp [cacheGet, lookupA_eraseA_self c.data key hnd]
    · simp [cacheExists, lookupA_eraseA_self c.data key hnd]
  · intro c key value c' hrt hnd hput
    obtain ⟨cv, st', entry, hc, hp, hc'⟩ := cachePut_ok diskOps c key value c' hput
    have hdp := diskOps_put_ok c.strategy key cv st' entry hp
    obtain ⟨he, hfs, -, -, -⟩ := disk_put_ok c.strategy.1 c.strategy.2 key cv
      st'.1 st'.2 entry hdp
    obtain ⟨cb, hcb, hdb⟩ := hrt value
    rw [hc] at hcb
    injection hcb with hcv
    subst hcv hc' he
    obtain ⟨fs', hrem⟩ := DirFS_remove_write_self c.strategy.2 key cv
    have hread : st'.2.read key = .ok cv := by
      rw [hfs]
      exact DirFS_read_write_self c.strategy.2 key cv
    have hrem' : st'.2.remove key = .ok fs' := by
      rw [hfs]
      exact hrem
    have htake : diskOps.take st' (⟨key, cv.length⟩ : DiskEntry) =
        .ok (({ st'.1 with
                 current_byte_count := st'.1.current_byte_count - cv.length,
                 current_entry_count := st'.1.current_entry_count - 1 }, fs'), cv) := by
      simp [diskOps, Disk.take, Disk.delete, hread, hrem', Except.map]
    refine ⟨_, cacheTake_eval diskOps _ key _ (eraseA c.data key) _ cv value
        (removeA_insertA c.data key _) htake hdb, ?_, ?_⟩
    · simp [cacheGet, lookupA_eraseA_self c.data key hnd]
    · simp [cacheExists, lookupA_eraseA_self c.data key hnd]
  · intro c key value c' hrt hnd hput
    obtain ⟨cv, st', entry, hc, hp, hc'⟩ := cachePut_ok hybridOps c key value c' hput
    have hdp := hybridOps_put_ok c.strategy key cv st' entry hp
    obtain ⟨cb, hcb, hdb⟩ := hrt value
    rw [hc] at hcb
    injection hcb with hcv
    subst hcv hc'
    rcases hybrid_put_ok c.strategy.1 c.strategy.2 key cv st'.1 st'.2 entry hdp with
      ⟨he, hfs, -, -⟩ | ⟨he, hfs, -, -, -⟩
    · subst he
      refine ⟨_, cacheTake_eval hybridOps _ key _ (eraseA c.data key) _ cv value
          (removeA_insertA c.data key _) rfl hdb, ?_, ?_⟩
      · simp [cacheGet, lookupA_eraseA_self c.data key hnd]
      · simp [cacheExists, lookupA_eraseA_self c.data key hnd]
    · subst he
      obtain ⟨fs', hrem⟩ := DirFS_remove_write_self c.strategy.2 key cv
      have hread : st'.2.read key = .ok cv := by
        rw [hfs]
        exact DirFS_read_write_self c.strategy.2 key cv
      have hrem' : st'.2.remove key = .ok fs' := by
        rw [hfs]
        exact hrem
      have htake : hybridOps.take st'
          (HEntry.disk ⟨key, cv.length⟩) =
          .ok (({ st'.1 with
                   disk_limits := st'.1.disk_limits.decr cv.length }, fs'), cv) := by
        simp [hybridOps, Hybrid.take, hread, hrem', Except.map]
      refine ⟨_, cacheTake_eval hybridOps _ key _ (eraseA c.data key) _ cv value
          (removeA_insertA c.data key _) htake hdb, ?_, ?_⟩
      · simp [cacheGet, lookupA_eraseA_self c.data key hnd]
      · simp [cacheExists, lookupA_eraseA_self c.data key hnd]

/-- Witness for C8: a concrete memory-strategy cache holding one entry put
before; take returns the bytes and get/exists on the resulting state report
absence. -/
theorem c8_take_removes_witness :
    (cacheTake memOps
        { data := [("k", ⟨[9], 1⟩)], strategy := ⟨none, none, 1, 1⟩,
          compressor := Compressor.noop } "k").2 = .ok [9] ∧
    cacheGet memOps
        (cacheTake memOps
          { data := [("k", ⟨[9], 1⟩)], strategy := ⟨none, none, 1, 1⟩,
            compressor := Compressor.noop } "k").1 "k" = .error .keyNotFound ∧
    cacheExists
        (cacheTake memOps
          { data := [("k", ⟨[9], 1⟩)], strategy := ⟨none, none, 1, 1⟩,
            compressor := Compressor.noop } "k").1 "k" = false := by
  obtain ⟨c'', h1, h2, h3⟩ := c8_take_removes.1
    { data := [], strategy := ⟨none, none, 0, 0⟩, compressor := Compressor.noop }
    "k" [9]
    { data := [("k", ⟨[9], 1⟩)], strategy := ⟨none, none, 1, 1⟩,
      compressor := Compressor.noop }
    (fun b => ⟨b, rfl, rfl⟩) (by simp) rfl
  rw [h1]
  exact ⟨rfl, h2, h3⟩

/-! ## C9: overwrite semantics of put -/

/-- C9 counterexample: a disk cache holds key "k" with file contents
[1, 2, 3]; a second put of [7] under the same key succeeds, and the previous
entry's file (named by the key) now holds [7] — its contents were replaced by
the overwrite, not left unchanged.  The counters still carry the old entry's
contribution (4 bytes, 2 entries counted though only one 1-byte file exists). -/
theorem c9_overwrite_counterexample :
    (cachePut diskOps
      { data := [("k", ⟨"k", 3⟩)],
        strategy := (⟨none, none, 3, 1⟩, ⟨[⟨"k", [1, 2, 3], true⟩], []⟩),
        compressor := Compressor.noop } "k" [7]).2 = .ok () ∧
    (cachePut diskOps
      { data := [("k", ⟨"k", 3⟩)],
        strategy := (⟨none, none, 3, 1⟩, ⟨[⟨"k", [1, 2, 3], true⟩], []⟩),
        compressor := Compressor.noop } "k" [7]).1.strategy.2.files
      = [⟨"k", [7], true⟩] ∧
    (cachePut diskOps
      { data := [("k", ⟨"k", 3⟩)],
        strategy := (⟨none, none, 3, 1⟩, ⟨[⟨"k", [1, 2, 3], true⟩], []⟩),
        compressor := Compressor.noop } "k" [7]).1.strategy.1.current_byte_count = 4 ∧
    (cachePut diskOps
      { data := [("k", ⟨"k", 3⟩)],
        strategy := (⟨none, none, 3, 1⟩, ⟨[⟨"k", [1, 2, 3], true⟩], []⟩),
        compressor := Compressor.noop } "k" [7]).1.strategy.1.current_entry_count = 2 :=
  ⟨rfl, rfl, rfl, rfl⟩

/-- C9 (amended): `Cache::put` on an existing key replaces only the map
handle and never invokes the strategy's delete for the previous entry: the
new entry's size is added on top of the counters (the old contribution is not
removed) and lookups of other keys are untouched.  For the disk strategy,
however, the new put writes to the file named by the key — the same path as
the previous entry's file — so that file's contents are replaced by the new
payload. -/
theorem c9_overwrite_amended :
    (∀ (c : CacheS Memory MemoryEntry) (key : String) (value cv : Bytes)
        (c' : CacheS Memory MemoryEntry),
        c.compressor.compress value = .ok cv →
        cachePut memOps c key value = (c', .ok ()) →
        c'.strategy.current_byte_count
          = c.strategy.current_byte_count + (cv.length : Int) ∧
        c'.strategy.current_entry_count = c.strategy.current_entry_count + 1 ∧
        lookupA c'.data key = some ⟨cv, cv.length⟩ ∧
        (∀ k', k' ≠ key → lookupA c'.data k' = lookupA c.data k'))
    ∧ (∀ (c : CacheS (Disk × DirFS) DiskEntry) (key : String) (value cv : Bytes)
        (c' : CacheS (Disk × DirFS) DiskEntry),
        c.compressor.compress value = .ok cv →
        cachePut diskOps c key value = (c', .ok ()) →
        c'.strategy.1.current_byte_count
          = c.strategy.1.current_byte_count + (cv.length : Int) ∧
        c'.strategy.1.current_entry_count = c.strategy.1.current_entry_count + 1 ∧
        c'.strategy.2 = (c.strategy.2).write key cv ∧
        lookupA c'.data key = some ⟨key, cv.length⟩ ∧
        (∀ k', k' ≠ key → lookupA c'.data k' = lookupA c.data k')) := by
  constructor
  · intro c key value cv c' hcv hput
    obtain ⟨cv0, s', entry, hc, hp, hc'⟩ := cachePut_ok memOps c key value c' hput
    rw [hcv] at hc
    injection hc with hcv0
    subst hcv0
    obtain ⟨he, hs, -, -⟩ := memory_put_ok c.strategy key cv s' entry hp
    subst he hs hc'
    exact ⟨rfl, rfl, lookupA_insertA_self c.data key _,
      fun k' hk' => lookupA_insertA_ne c.data key k' _ hk'⟩
  · intro c key value cv c' hcv hput
    obtain ⟨cv0, st', entry, hc, hp, hc'⟩ := cachePut_ok diskOps c key value c' hput
    rw [hcv] at hc
    injection hc with hcv0
    subst hcv0
    have hdp := diskOps_put_ok c.strategy key cv st' entry hp
    obtain ⟨he, hfs, hs, -, -⟩ := disk_put_ok c.strategy.1 c.strategy.2 key cv
      st'.1 st'.2 entry hdp
    subst he hc'
    refine ⟨?_, ?_, hfs, lookupA_insertA_self c.data key _,
      fun k' hk' => lookupA_insertA_ne c.data key k' _ hk'⟩
    · rw [hs]
    · rw [hs]

/-- Witness for the amended C9: overwriting key "k" of a one-entry memory
cache leaves counters at old-plus-new and the map handle replaced. -/
theorem c9_overwrite_witness :
    (3 : Int) = 1 + (([5, 6] : Bytes).length : Int) ∧
    (2 : Int) = 1 + 1 ∧
    lookupA [("k", (⟨[5, 6], 2⟩ : MemoryEntry))] "k" = some ⟨[5, 6], 2⟩ ∧
    lookupA [("k", (⟨[5, 6], 2⟩ : MemoryEntry))] "j"
      = lookupA [("k", (⟨[1], 1⟩ : MemoryEntry))] "j" := by
  have h := c9_overwrite_amended.1
    { data := [("k", ⟨[1], 1⟩)], strategy := ⟨none, none, 1, 1⟩,
      compressor := Compressor.noop }
    "k" [5, 6] [5, 6]
    { data := [("k", ⟨[5, 6], 2⟩)], strategy := ⟨none, none, 3, 2⟩,
      compressor := Compressor.noop }
    rfl rfl
  exact ⟨h.1, h.2.1, h.2.2.1, h.2.2.2 "j" (by decide)⟩

/-! ## C6: best-effort recovery -/

/-- With every file readable, the disk recovery loop scans everything:
rejected files are moved aside, accepted files are registered in order and
the counters are incremented by the accepted totals. -/
theorem diskRecoverLoop_all_readable (rk : String → Option String) (todo : List FileRec) :
    ∀ s : Disk, (∀ fl ∈ todo, fl.readable = true) →
      diskRecoverLoop s rk todo =
        ({ s with
            current_byte_count :=
              s.current_byte_count + filesBytes (acceptedFiles rk todo),
            current_entry_count :=
              s.current_entry_count + ((acceptedFiles rk todo).length : Int) },
         acceptedFiles rk todo, rejectedFiles rk todo, .ok (recoveredPairsD rk todo)) := by
  induction todo with
  | nil =>
    intro s _
    simp [diskRecoverLoop, acceptedFiles, rejectedFiles, recoveredPairsD, filesBytes]
  | cons fl rest ih =>
    intro s hrd
    have hfl : fl.readable = true := hrd fl (List.mem_cons_self _ _)
    have hrest : ∀ f ∈ rest, f.readable = true :=
      fun f hf => hrd f (List.mem_cons_of_mem _ hf)
    cases hrk : rk fl.name with
    | none =>
      rcases hrec : diskRecoverLoop s rk rest with ⟨s2, keep, lost, res⟩
      have hih := ih s hrest
      rw [hrec] at hih
      simp only [Prod.mk.injEq] at hih
      obtain ⟨hs2, hkeep, hlost, hres⟩ := hih
      subst hs2 hkeep hlost hres
      simp [diskRecoverLoop, hrk, hrec, acceptedFiles, rejectedFiles,
        recoveredPairsD, List.filter_cons]
    | some key =>
      rcases hrec : diskRecoverLoop
          { s with
             current_byte_count := s.current_byte_count + fl.content.length,
             current_entry_count := s.current_entry_count + 1 } rk rest with
        ⟨s2, keep, lost, res⟩
      have hih := ih { s with
          current_byte_count := s.current_byte_count + fl.content.length,
          current_entry_count := s.current_entry_count + 1 } hrest
      rw [hrec] at hih
      simp only [Prod.mk.injEq] at hih
      obtain ⟨hs2, hkeep, hlost, hres⟩ := hih
      subst hs2 hkeep hlost hres
      simp [diskRecoverLoop, hrk, hfl, hrec, acceptedFiles, rejectedFiles,
        recoveredPairsD, filesBytes, List.filter_cons, Except.map,
        Disk.mk.injEq, Prod.mk.injEq]
      omega

/-- Hybrid version of `diskRecoverLoop_all_readable`. -/
theorem hybridRecoverLoop_all_readable (rk : String → Option String) (todo : List FileRec) :
    ∀ s : Hybrid, (∀ fl ∈ todo, fl.readable = true) →
      hybridRecoverLoop s rk todo =
        ({ s with
            disk_limits := { s.disk_limits with
              current_byte_count :=
                s.disk_limits.current_byte_count + filesBytes (acceptedFiles rk todo),
              current_entry_count :=
                s.disk_limits.current_entry_count
                  + ((acceptedFiles rk todo).length : Int) } },
         acceptedFiles rk todo, rejectedFiles rk todo, .ok (recoveredPairsH rk todo)) := by
  induction todo with
  | nil =>
    intro s _
    simp [hybridRecoverLoop, acceptedFiles, rejectedFiles, recoveredPairsH, filesBytes]
  | cons fl rest ih =>
    intro s hrd
    have hfl : fl.readable = true := hrd fl (List.mem_cons_self _ _)
    have hrest : ∀ f ∈ rest, f.readable = true :=
      fun f hf => hrd f (List.mem_cons_of_mem _ hf)
    cases hrk : rk fl.name with
    | none =>
      rcases hrec : hybridRecoverLoop s rk rest with ⟨s2, keep, lost, res⟩
      have hih := ih s hrest
      rw [hrec] at hih
      simp only [Prod.mk.injEq] at hih
      obtain ⟨hs2, hkeep, hlost, hres⟩ := hih
      subst hs2 hkeep hlost hres
      simp [hybridRecoverLoop, hrk, hrec, acceptedFiles, rejectedFiles,
        recoveredPairsH, List.filter_cons]
    | some key =>
      rcases hrec : hybridRecoverLoop
          { s with disk_limits := s.disk_limits.incr fl.content.length } rk rest with
        ⟨s2, keep, lost, res⟩
      have hih := ih { s with disk_limits := s.disk_limits.incr fl.content.length } hrest
      rw [hrec] at hih
      simp only [Prod.mk.injEq] at hih
      obtain ⟨hs2, hkeep, hlost, hres⟩ := hih
      subst hs2 hkeep hlost hres
      simp only [hybridRecoverLoop, hrk, hfl, hrec, acceptedFiles, rejectedFiles,
        recoveredPairsH, filesBytes, List.filter_cons, Option.isSome_some,
        Option.isNone_some, Except.map, if_true]
      simp [Hybrid.mk.injEq, Limits.incr, Limits.mk.injEq, Prod.mk.injEq]
      constructor <;> omega

/-- If every parser-accepted file before some accepted, unreadable file is
readable, the disk recovery scan reaches that file and aborts with the I/O
error. -/
theorem diskRecoverLoop_abort (rk : String → Option String) (pre : List FileRec) :
    ∀ (s : Disk) (fl : FileRec) (post : List FileRec),
      (∀ f ∈ pre, (rk f.name).isSome = true → f.readable = true) →
      (rk fl.name).isSome = true → fl.readable = false →
      (diskRecoverLoop s rk (pre ++ fl :: post)).2.2.2 = .error .ioError := by
  induction pre with
  | nil =>
    intro s fl post _ hacc hrd
    obtain ⟨key, hkey⟩ := Option.isSome_iff_exists.mp hacc
    simp [diskRecoverLoop, hkey, hrd]
  | cons f0 rest ih =>
    intro s fl post hpre hacc hrd
    cases hrk : rk f0.name with
    | none =>
      rcases hrec : diskRecoverLoop s rk (rest ++ fl :: post) with ⟨s2, keep, lost, res⟩
      have hres := ih s fl post (fun f hf => hpre f (List.mem_cons_of_mem _ hf)) hacc hrd
      rw [hrec] at hres
      simpa [diskRecoverLoop, hrk, hrec] using hres
    | some key =>
      have hf0 : f0.readable = true :=
        hpre f0 (List.mem_cons_self _ _) (by simp [hrk])
      rcases hrec : diskRecoverLoop
          { s with
             current_byte_count := s.current_byte_count + f0.content.length,
             current_entry_count := s.current_entry_count + 1 } rk
          (rest ++ fl :: post) with ⟨s2, keep, lost, res⟩
      have hres := ih { s with
          current_byte_count := s.current_byte_count + f0.content.length,
          current_entry_count := s.current_entry_count + 1 } fl post
        (fun f hf => hpre f (List.mem_cons_of_mem _ hf)) hacc hrd
      rw [hrec] at hres
      simp only at hres
      simp [diskRecoverLoop, hrk, hf0, hrec, hres, Except.map]

/-- Hybrid version of `diskRecoverLoop_abort`. -/
theorem hybridRecoverLoop_abort (rk : String → Option String) (pre : List FileRec) :
    ∀ (s : Hybrid) (fl : FileRec) (post : List FileRec),
      (∀ f ∈ pre, (rk f.name).isSome = true → f.readable = true) →
      (rk fl.name).isSome = true → fl.readable = false →
      (hybridRecoverLoop s rk (pre ++ fl :: post)).2.2.2 = .error .ioError := by
  induction pre with
  | nil =>
    intro s fl post _ hacc hrd
    obtain ⟨key, hkey⟩ := Option.isSome_iff_exists.mp hacc
    simp [hybridRecoverLoop, hkey, hrd]
  | cons f0 rest ih =>
    intro s fl post hpre hacc hrd
    cases hrk : rk f0.name with
    | none =>
      rcases hrec : hybridRecoverLoop s rk (rest ++ fl :: post) with ⟨s2, keep, lost, res⟩
      have hres := ih s fl post (fun f hf => hpre f (List.mem_cons_of_mem _ hf)) hacc hrd
      rw [hrec] at hres
      simpa [hybridRecoverLoop, hrk, hrec] using hres
    | some key =>
      have hf0 : f0.readable = true :=
        hpre f0 (List.mem_cons_self _ _) (by simp [hrk])
      rcases hrec : hybridRecoverLoop
          { s with disk_limits := s.disk_limits.incr f0.content.length } rk
          (rest ++ fl :: post) with ⟨s2, keep, lost, res⟩
      have hres := ih { s with disk_limits := s.disk_limits.incr f0.content.length } fl post
        (fun f hf => hpre f (List.mem_cons_of_mem _ hf)) hacc hrd
      rw [hrec] at hres
      simp only at hres
      simp [hybridRecoverLoop, hrk, hf0, hrec, hres, Except.map]

/-- C6 counterexample: the cache directory holds an unreadable file "a" whose
name the identity parser accepts, followed by a readable file "b"; recover
aborts with the I/O error instead of scanning "b", returning no entries and
leaving both files (and the counters) untouched. -/
theorem c6_recover_best_effort_counterexample :
    Disk.recover ⟨none, none, 0, 0⟩ ⟨[⟨"a", [1], false⟩, ⟨"b", [2], true⟩], []⟩
        (fun n => some n)
      = (⟨none, none, 0, 0⟩, ⟨[⟨"a", [1], false⟩, ⟨"b", [2], true⟩], []⟩,
         .error .ioError) := by
  decide

/-- C6 (amended): recovery quarantines parser-rejected files without aborting:
when every file is readable, the whole directory is scanned, every rejected
file is moved to lost+found and excluded from the result, and every accepted
file is registered (disk and hybrid strategies alike).  However, a file whose
contents cannot be read — when its name is parser-accepted — aborts recover
with the I/O error, leaving the remaining files unscanned. -/
theorem c6_recover_best_effort_amended :
    (∀ (s : Disk) (fs : DirFS) (rk : String → Option String),
      (∀ fl ∈ fs.files, fl.readable = true) →
      Disk.recover s fs rk =
        ({ s with
            current_byte_count :=
              s.current_byte_count + filesBytes (acceptedFiles rk fs.files),
            current_entry_count :=
              s.current_entry_count + ((acceptedFiles rk fs.files).length : Int) },
         ⟨acceptedFiles rk fs.files, fs.lostFound ++ rejectedFiles rk fs.files⟩,
         .ok (recoveredPairsD rk fs.files)))
    ∧ (∀ (s : Hybrid) (fs : DirFS) (rk : String → Option String),
      (∀ fl ∈ fs.files, fl.readable = true) →
      Hybrid.recover s fs rk =
        ({ s with
            disk_limits := { s.disk_limits with
              current_byte_count :=
                s.disk_limits.current_byte_count + filesBytes (acceptedFiles rk fs.files),
              current_entry_count :=
                s.disk_limits.current_entry_count
                  + ((acceptedFiles rk fs.files).length : Int) } },
         ⟨acceptedFiles rk fs.files, fs.lostFound ++ rejectedFiles rk fs.files⟩,
         .ok (recoveredPairsH rk fs.files)))
    ∧ (∀ (s : Disk) (fs : DirFS) (rk : String → Option String)
        (pre : List FileRec) (fl : FileRec) (post : List FileRec),
      fs.files = pre ++ fl :: post →
      (∀ f ∈ pre, (rk f.name).isSome = true → f.readable = true) →
      (rk fl.name).isSome = true → fl.readable = false →
      (Disk.recover s fs rk).2.2 = .error .ioError)
    ∧ (∀ (s : Hybrid) (fs : DirFS) (rk : String → Option String)
        (pre : List FileRec) (fl : FileRec) (post : List FileRec),
      fs.files = pre ++ fl :: post →
      (∀ f ∈ pre, (rk f.name).isSome = true → f.readable = true) →
      (rk fl.name).isSome = true → fl.readable = false →
      (Hybrid.recover s fs rk).2.2 = .error .ioError) := by
  refine ⟨?_, ?_, ?_, ?_⟩
  · intro s fs rk hrd
    rw [Disk.recover, diskRecoverLoop_all_readable rk fs.files s hrd]
  · intro s fs rk hrd
    rw [Hybrid.recover, hybridRecoverLoop_all_readable rk fs.files s hrd]
  · intro s fs rk pre fl post hsplit hpre hacc hrd
    have hres := diskRecoverLoop_abort rk pre s fl post hpre hacc hrd
    rw [← hsplit] at hres
    rcases hrec : diskRecoverLoop s rk fs.files with ⟨s2, keep, lost, res⟩
    rw [hrec] at hres
    simpa [Disk.recover, hrec] using hres
  · intro s fs rk pre fl post hsplit hpre hacc hrd
    have hres := hybridRecoverLoop_abort rk pre s fl post hpre hacc hrd
    rw [← hsplit] at hres
    rcases hrec : hybridRecoverLoop s rk fs.files with ⟨s2, keep, lost, res⟩
    rw [hrec] at hres
    simpa [Hybrid.recover, hrec] using hres

/-- Witness for the amended C6: a directory of two readable files, one
accepted and one rejected by the parser; the rejected file moves to
lost+found and exactly the accepted one is recovered. -/
theorem c6_recover_best_effort_witness :
    Disk.recover ⟨none, none, 0, 0⟩
        ⟨[⟨"good", [1, 2], true⟩, ⟨"bad", [3], true⟩], []⟩
        (fun n => if n = "bad" then none else some n)
      = (⟨none, none, 2, 1⟩,
         ⟨[⟨"good", [1, 2], true⟩], [⟨"bad", [3], true⟩]⟩,
         .ok [("good", ⟨"good", 2⟩)]) := by
  have h := c6_recover_best_effort_amended.1 ⟨none, none, 0, 0⟩
      ⟨[⟨"good", [1, 2], true⟩, ⟨"bad", [3], true⟩], []⟩
      (fun n => if n = "bad" then none else some n)
      (by intro fl hfl; fin_cases hfl <;> rfl)
  rw [h]
  decide

/-! ## Flush machinery (Cache::flush over the hybrid strategy) -/

theorem memKeys_cons_memory (k : String) (me : MemoryEntry)
    (rest : List (String × HEntry)) :
    memKeys ((k, .memory me) :: rest) = k :: memKeys rest := by
  simp [memKeys, memPairs, List.filter_cons, isMemoryEntry]

theorem memKeys_cons_disk (k : String) (de : DiskEntry)
    (rest : List (String × HEntry)) :
    memKeys ((k, .disk de) :: rest) = memKeys rest := by
  simp [memKeys, memPairs, List.filter_cons, isMemoryEntry]

theorem diskPairs_cons_memory (k : String) (me : MemoryEntry)
    (rest : List (String × HEntry)) :
    diskPairs ((k, .memory me) :: rest) = diskPairs rest := by
  simp [diskPairs, List.filter_cons, isMemoryEntry]

theorem diskPairs_cons_disk (k : String) (de : DiskEntry)
    (rest : List (String × HEntry)) :
    diskPairs ((k, .disk de) :: rest) = (k, .disk de) :: diskPairs rest := by
  simp [diskPairs, List.filter_cons, isMemoryEntry]

theorem memKeys_subset (data : List (String × HEntry)) (k : String)
    (h : k ∈ memKeys data) : k ∈ data.map Prod.fst := by
  simp only [memKeys, memPairs, List.mem_map] at h ⊢
  obtain ⟨p, hp, hpk⟩ := h
  exact ⟨p, List.mem_of_mem_filter hp, hpk⟩

theorem flushedPairs_keys (data : List (String × HEntry)) :
    (flushedPairs data).map Prod.fst = memKeys data := by
  induction data with
  | nil => rfl
  | cons p rest ih =>
    obtain ⟨k, e⟩ := p
    cases e with
    | memory me => simp [flushedPairs, memKeys_cons_memory, ih]
    | disk de => simp [flushedPairs, memKeys_cons_disk, ih]

theorem flushedPairs_all_disk (data : List (String × HEntry)) :
    ∀ p ∈ flushedPairs data, isMemoryEntry p.2 = false := by
  induction data with
  | nil => intro p hp; cases hp
  | cons q rest ih =>
    obtain ⟨k, e⟩ := q
    cases e with
    | memory me =>
      intro p hp
      rcases List.mem_cons.mp hp with hh | ht
      · subst hh; rfl
      · exact ih p ht
    | disk de => exact ih

/-- With distinct keys, a key maps to at most one entry. -/
theorem nodup_unique_entry {ε : Type} (data : List (String × ε)) (k : String)
    (e1 e2 : ε) (hnd : (data.map Prod.fst).Nodup)
    (h1 : (k, e1) ∈ data) (h2 : (k, e2) ∈ data) : e1 = e2 := by
  induction data with
  | nil => cases h1
  | cons q rest ih =>
    simp only [List.map_cons, List.nodup_cons] at hnd
    rcases List.mem_cons.mp h1 with hh1 | ht1 <;>
      rcases List.mem_cons.mp h2 with hh2 | ht2
    · exact congrArg Prod.snd (hh1.trans hh2.symm)
    · exfalso
      apply hnd.1
      rw [← hh1]
      exact List.mem_map.mpr ⟨(k, e2), ht2, rfl⟩
    · exfalso
      apply hnd.1
      rw [← hh2]
      exact List.mem_map.mpr ⟨(k, e1), ht1, rfl⟩
    · exact ih hnd.2 ht1 ht2

theorem mem_insertA_of_ne {ε : Type} (d : List (String × ε)) (k : String) (e : ε)
    (p : String × ε) (hp : p ∈ d) (hne : p.1 ≠ k) : p ∈ insertA d k e := by
  induction d with
  | nil => cases hp
  | cons q rest ih =>
    obtain ⟨qk, qe⟩ := q
    by_cases hq : qk = k
    · simp only [insertA, hq, if_true]
      rcases List.mem_cons.mp hp with hh | ht
      · exact absurd (by rw [hh]; exact hq) hne
      · exact List.mem_cons_of_mem _ ht
    · simp only [insertA, hq, if_false]
      rcases List.mem_cons.mp hp with hh | ht
      · rw [hh]
        exact List.mem_cons_self _ _
      · exact List.mem_cons_of_mem _ (ih ht)

theorem mem_foldl_insertA {ε : Type} (ins : List (String × ε)) :
    ∀ (d : List (String × ε)) (p : String × ε), p ∈ d →
      (∀ q ∈ ins, p.1 ≠ q.1) →
      p ∈ ins.foldl (fun d0 q => insertA d0 q.1 q.2) d := by
  induction ins with
  | nil => intro d p hp _; exact hp
  | cons q rest ih =>
    intro d p hp hne
    simp only [List.foldl_cons]
    exact ih (insertA d q.1 q.2) p
      (mem_insertA_of_ne d q.1 q.2 p hp (hne q (List.mem_cons_self _ _)))
      (fun q' hq' => hne q' (List.mem_cons_of_mem _ hq'))

theorem mem_insertA {ε : Type} (d : List (String × ε)) (k : String) (e : ε)
    (p : String × ε) (hp : p ∈ insertA d k e) : p ∈ d ∨ p = (k, e) := by
  induction d with
  | nil => simpa [insertA] using hp
  | cons q rest ih =>
    obtain ⟨qk, qe⟩ := q
    by_cases hq : qk = k
    · simp only [insertA, hq, if_true] at hp
      rcases List.mem_cons.mp hp with hh | ht
      · exact Or.inr hh
      · exact Or.inl (List.mem_cons_of_mem _ ht)
    · simp only [insertA, hq, if_false] at hp
      rcases List.mem_cons.mp hp with hh | ht
      · exact Or.inl (hh ▸ List.mem_cons_self _ _)
      · rcases ih ht with h | h
        · exact Or.inl (List.mem_cons_of_mem _ h)
        · exact Or.inr h

theorem all_foldl_insertA {ε : Type} (P : (String × ε) → Prop)
    (ins : List (String × ε)) :
    ∀ d : List (String × ε), (∀ p ∈ d, P p) → (∀ q ∈ ins, P q) →
      ∀ p ∈ ins.foldl (fun d0 q => insertA d0 q.1 q.2) d, P p := by
  induction ins with
  | nil => intro d hd _ p hp; exact hd p hp
  | cons q rest ih =>
    intro d hd hins p hp
    simp only [List.foldl_cons] at hp
    refine ih (insertA d q.1 q.2) ?_ (fun q' hq' => hins q' (List.mem_cons_of_mem _ hq')) p hp
    intro r hr
    rcases mem_insertA d q.1 q.2 r hr with h | h
    · exact hd r h
    · rw [h]
      exact hins (q.1, q.2) (by simp)

/-- A scan over a map whose entries are all disk-resident flushes nothing and
changes nothing. -/
theorem flushScan_all_disk (data : List (String × HEntry)) :
    ∀ (s : Hybrid) (fs : DirFS), (∀ p ∈ data, isMemoryEntry p.2 = false) →
      flushScan s fs data = ((s, fs), .ok ([], [], 0)) := by
  induction data with
  | nil => intro s fs _; rfl
  | cons p rest ih =>
    intro s fs hall
    obtain ⟨k, e⟩ := p
    cases e with
    | memory me =>
      have := hall (k, .memory me) (List.mem_cons_self _ _)
      simp [isMemoryEntry] at this
    | disk de =>
      have hrest := fun q hq => hall q (List.mem_cons_of_mem _ hq)
      simp [flushScan, Hybrid.flush, ih s fs hrest]

/-- A fully successful scan: memory-tier counters untouched, disk-tier
counters advanced by the memory-resident totals, and the collected keys,
replacement pairs and count are exactly the memory-resident ones. -/
theorem flushScan_ok (data : List (String × HEntry)) :
    ∀ (s : Hybrid) (fs : DirFS) (st : Hybrid × DirFS) (ks : List String)
      (ins : List (String × HEntry)) (n : Nat),
      flushScan s fs data = (st, .ok (ks, ins, n)) →
      st.1.memory_limits = s.memory_limits ∧
      st.1.disk_limits.byte_limit = s.disk_limits.byte_limit ∧
      st.1.disk_limits.entry_limit = s.disk_limits.entry_limit ∧
      st.1.disk_limits.current_byte_count
        = s.disk_limits.current_byte_count + hMemBytes (data.map Prod.snd) ∧
      st.1.disk_limits.current_entry_count
        = s.disk_limits.current_entry_count + hMemCount (data.map Prod.snd) ∧
      ks = memKeys data ∧ ins = flushedPairs data ∧
      (n : Int) = hMemCount (data.map Prod.snd) := by
  induction data with
  | nil =>
    intro s fs st ks ins n h
    simp only [flushScan, Prod.mk.injEq, Except.ok.injEq] at h
    obtain ⟨hst, hks, hins, hn⟩ := h
    subst hst hks hins hn
    simp [memKeys, memPairs, flushedPairs, hMemBytes, hMemCount]
  | cons p rest ih =>
    intro s fs st ks ins n h
    obtain ⟨k, e⟩ := p
    cases e with
    | disk de =>
      simp only [flushScan, Hybrid.flush] at h
      obtain ⟨h1, h2, h3, h4, h5, h6, h7, h8⟩ := ih s fs st ks ins n h
      rw [memKeys_cons_disk] at *
      refine ⟨h1, h2, h3, ?_, ?_, h6, ?_, ?_⟩
      · simpa [hMemBytes] using h4
      · simpa [hMemCount] using h5
      · simp [flushedPairs, h7]
      · simpa [hMemCount] using h8
    | memory me =>
      cases hev : s.disk_limits.evaluate me.byte_len with
      | limitExceeded kind =>
        cases kind <;> simp [flushScan, Hybrid.flush, hev] at h
      | limitSatisfied =>
        rcases hrec : flushScan { s with disk_limits := s.disk_limits.incr me.byte_len }
            (fs.write k me.data) rest with ⟨st0, res0⟩
        have hstep : flushScan s fs ((k, .memory me) :: rest) =
            (match flushScan { s with disk_limits := s.disk_limits.incr me.byte_len }
                (fs.write k me.data) rest with
             | (st1, .error e) => (st1, .error e)
             | (st1, .ok (ks1, ins1, n1)) =>
               (st1, .ok (k :: ks1, (k, .disk ⟨k, me.byte_len⟩) :: ins1, n1 + 1))) := by
          simp [flushScan, Hybrid.flush, hev]
        rw [hstep, hrec] at h
        cases res0 with
        | error e => simp at h
        | ok r0 =>
          obtain ⟨ks1, ins1, n1⟩ := r0
          simp only [Prod.mk.injEq, Except.ok.injEq] at h
          obtain ⟨hst, hks, hins, hn⟩ := h
          subst hst hks hins hn
          obtain ⟨h1, h2, h3, h4, h5, h6, h7, h8⟩ :=
            ih _ _ st0 ks1 ins1 n1 hrec
          subst h6 h7
          refine ⟨?_, ?_, ?_, ?_, ?_, ?_, ?_, ?_⟩
          · simpa [Limits.incr] using h1
          · simpa [Limits.incr] using h2
          · simpa [Limits.incr] using h3
          · rw [h4]
            simp only [Limits.incr, List.map_cons, hMemBytes]
            omega
          · rw [h5]
            simp only [Limits.incr, List.map_cons, hMemCount]
            omega
          · rw [memKeys_cons_memory]
          · simp [flushedPairs]
          · simp only [List.map_cons, hMemCount]
            push_cast
            omega

/-- Removal of a key not among the processed ones commutes with the removal
loop. -/
theorem flushRemoveLoop_skip (ks : List String) :
    ∀ (s : Hybrid) (fs : DirFS) (d : List (String × HEntry)) (k : String) (e : HEntry),
      k ∉ ks →
      flushRemoveLoop s fs ((k, e) :: d) ks =
        (((flushRemoveLoop s fs d ks).1.1, (flushRemoveLoop s fs d ks).1.2.1,
          (k, e) :: (flushRemoveLoop s fs d ks).1.2.2),
         (flushRemoveLoop s fs d ks).2) := by
  induction ks with
  | nil => intro s fs d k e _; rfl
  | cons k1 ks1 ih =>
    intro s fs d k e hk
    have hne : ¬ k = k1 := fun h => hk (h ▸ List.mem_cons_self _ _)
    have hk1 : k ∉ ks1 := fun h => hk (List.mem_cons_of_mem _ h)
    cases hra : removeA d k1 with
    | none => simp [flushRemoveLoop, removeA, hne, hra]
    | some r =>
      obtain ⟨e1, d1⟩ := r
      cases hdel : Hybrid.delete s fs e1 with
      | error err => simp [flushRemoveLoop, removeA, hne, hra, hdel, Except.map]
      | ok pr =>
        obtain ⟨s1, fs1⟩ := pr
        simp [flushRemoveLoop, removeA, hne, hra, hdel, Except.map,
          ih s1 fs1 d1 k e hk1]

/-- With distinct keys, the removal loop over the memory-resident keys always
succeeds: every memory pair is removed and deleted (decrementing the memory
tier), the disk pairs remain in order, and the filesystem and disk tier are
untouched. -/
theorem flushRemoveLoop_mem_keys (data : List (String × HEntry)) :
    ∀ (s : Hybrid) (fs : DirFS), (data.map Prod.fst).Nodup →
      ∃ s' : Hybrid,
        flushRemoveLoop s fs data (memKeys data) = ((s', fs, diskPairs data), .ok ()) ∧
        s'.memory_limits.byte_limit = s.memory_limits.byte_limit ∧
        s'.memory_limits.entry_limit = s.memory_limits.entry_limit ∧
        s'.memory_limits.current_byte_count
          = s.memory_limits.current_byte_count - hMemBytes (data.map Prod.snd) ∧
        s'.memory_limits.current_entry_count
          = s.memory_limits.current_entry_count - hMemCount (data.map Prod.snd) ∧
        s'.disk_limits = s.disk_limits := by
  induction data with
  | nil =>
    intro s fs _
    refine ⟨s, rfl, rfl, rfl, ?_, ?_, rfl⟩ <;> simp [hMemBytes, hMemCount]
  | cons p rest ih =>
    intro s fs hnd
    obtain ⟨k, e⟩ := p
    simp only [List.map_cons, List.nodup_cons] at hnd
    obtain ⟨hk, hnd'⟩ := hnd
    cases e with
    | memory me =>
      obtain ⟨s', hloop, hb1, hb2, hb3, hb4, hb5⟩ :=
        ih { s with memory_limits := s.memory_limits.decr me.byte_len } fs hnd'
      refine ⟨s', ?_, ?_, ?_, ?_, ?_, ?_⟩
      · rw [memKeys_cons_memory, diskPairs_cons_memory]
        simp only [flushRemoveLoop, removeA, if_pos rfl, Hybrid.delete]
        exact hloop
      · simpa [Limits.decr] using hb1
      · simpa [Limits.decr] using hb2
      · rw [hb3]
        simp only [Limits.decr, List.map_cons, hMemBytes]
        omega
      · rw [hb4]
        simp only [Limits.decr, List.map_cons, hMemCount]
        omega
      · simpa [Limits.decr] using hb5
    | disk de =>
      have hknotin : k ∉ memKeys rest := fun hmem => hk (memKeys_subset rest k hmem)
      obtain ⟨s', hloop, hb1, hb2, hb3, hb4, hb5⟩ := ih s fs hnd'
      refine ⟨s', ?_, hb1, hb2, ?_, ?_, hb5⟩
      · rw [memKeys_cons_disk, diskPairs_cons_disk,
          flushRemoveLoop_skip (memKeys rest) s fs rest k (.disk de) hknotin, hloop]
      · rw [hb3]
        simp only [List.map_cons, hMemBytes]
      · rw [hb4]
        simp only [List.map_cons, hMemCount]

/-- A cache whose entries are all disk-resident flushes as a no-op returning
count 0. -/
theorem cacheFlush_all_disk (c : CacheS (Hybrid × DirFS) HEntry)
    (hall : ∀ p ∈ c.data, isMemoryEntry p.2 = false) :
    cacheFlush c = (c, .ok 0) := by
  have hscan := flushScan_all_disk c.data c.strategy.1 c.strategy.2 hall
  simp only [cacheFlush, hscan, flushRemoveLoop, List.foldl_nil]

/-- If the scan of a prefix succeeds and the next entry's flush fails, the
whole scan stops there with that error and the state accumulated over the
prefix. -/
theorem flushScan_error_after_prefix (pre : List (String × HEntry)) :
    ∀ (s : Hybrid) (fs : DirFS) (k : String) (me : MemoryEntry)
      (post : List (String × HEntry)) (st : Hybrid × DirFS) (ks : List String)
      (ins : List (String × HEntry)) (n : Nat) (err : Err),
      flushScan s fs pre = (st, .ok (ks, ins, n)) →
      Hybrid.flush st.1 st.2 k (.memory me) = .error err →
      flushScan s fs (pre ++ (k, .memory me) :: post) = (st, .error err) := by
  induction pre with
  | nil =>
    intro s fs k me post st ks ins n err h1 h2
    simp only [flushScan, Prod.mk.injEq, Except.ok.injEq] at h1
    obtain ⟨hst, -⟩ := h1
    subst hst
    simp only [List.nil_append, flushScan, h2]
  | cons p pre' ih =>
    intro s fs k me post st ks ins n err h1 h2
    obtain ⟨k0, e0⟩ := p
    cases hfl : Hybrid.flush s fs k0 e0 with
    | error e =>
      rw [show flushScan s fs ((k0, e0) :: pre') = ((s, fs), .error e) by
        simp [flushScan, hfl]] at h1
      simp at h1
    | ok tr =>
      obtain ⟨s1, fs1, r⟩ := tr
      cases r with
      | none =>
        have h1' : flushScan s1 fs1 pre' = (st, .ok (ks, ins, n)) := by
          rw [show flushScan s fs ((k0, e0) :: pre') = flushScan s1 fs1 pre' by
            simp [flushScan, hfl]] at h1
          exact h1
        have := ih s1 fs1 k me post st ks ins n err h1' h2
        simp only [List.cons_append, flushScan, hfl]
        exact this
      | some ne =>
        rcases hrec : flushScan s1 fs1 pre' with ⟨st0, res0⟩
        rw [show flushScan s fs ((k0, e0) :: pre') =
            (match flushScan s1 fs1 pre' with
             | (st1, .error e) => (st1, .error e)
             | (st1, .ok (ks1, ins1, n1)) =>
               (st1, .ok (k0 :: ks1, (k0, ne) :: ins1, n1 + 1))) by
          simp [flushScan, hfl]] at h1
        rw [hrec] at h1
        cases res0 with
        | error e => simp at h1
        | ok r0 =>
          obtain ⟨ks1, ins1, n1⟩ := r0
          simp only [Prod.mk.injEq, Except.ok.injEq] at h1
          obtain ⟨hst, -⟩ := h1
          subst hst
          have := ih s1 fs1 k me post st0 ks1 ins1 n1 err hrec h2
          rcases hrec2 : flushScan s1 fs1 (pre' ++ (k, .memory me) :: post) with
            ⟨st2, res2⟩
          rw [hrec2] at this
          simp only [Prod.mk.injEq] at this
          obtain ⟨hst2, hres2⟩ := this
          subst hst2 hres2
          simp only [List.cons_append, flushScan, hfl, List.append_eq, hrec2]

/-- With distinct keys, a key holding a disk entry is not a memory-resident
key. -/
theorem not_mem_memKeys_of_disk (data : List (String × HEntry)) (k : String)
    (de : DiskEntry) (hnd : (data.map Prod.fst).Nodup)
    (hp : (k, .disk de) ∈ data) : k ∉ memKeys data := by
  intro hmem
  simp only [memKeys, List.mem_map] at hmem
  obtain ⟨p', hp', hpk⟩ := hmem
  have hmem' := List.mem_of_mem_filter hp'
  have hprop := (List.mem_filter.mp hp').2
  have hpair : (k, p'.2) ∈ data := by
    rw [← hpk]
    exact hmem'
  have hde := nodup_unique_entry data k (.disk de) p'.2 hnd hp hpair
  rw [← hde] at hprop
  simp [isMemoryEntry] at hprop

/-! ## C5: hybrid flush -/

/-- C5: `Hybrid::flush` is a no-op success (`none`) for every disk entry; for
a memory entry it evaluates disk-tier fit — on failure it returns
LimitExceeded naming the disk tier's failing dimension, on success it writes
the bytes to the file named by the key, adds the size and one entry to the
disk-tier counters and returns the new disk entry.  Consequently a successful
`Cache::flush` (distinct keys) moves exactly the memory-resident totals from
the memory-tier counters into the disk-tier counters, returns the number of
memory-resident entries, leaves only disk-resident entries in the map, and a
second `Cache::flush` with no memory entries left returns 0 changing
nothing. -/
theorem c5_hybrid_flush :
    (∀ (s : Hybrid) (fs : DirFS) (key : String) (de : DiskEntry),
      Hybrid.flush s fs key (.disk de) = .ok (s, fs, none))
    ∧ (∀ (s : Hybrid) (fs : DirFS) (key : String) (me : MemoryEntry),
      s.disk_limits.evaluate me.byte_len = .limitExceeded .bytes →
      Hybrid.flush s fs key (.memory me)
        = .error (.limitExceeded LIMIT_KIND_BYTE_DISK))
    ∧ (∀ (s : Hybrid) (fs : DirFS) (key : String) (me : MemoryEntry),
      s.disk_limits.evaluate me.byte_len = .limitExceeded .entries →
      Hybrid.flush s fs key (.memory me)
        = .error (.limitExceeded LIMIT_KIND_ENTRY_DISK))
    ∧ (∀ (s : Hybrid) (fs : DirFS) (key : String) (me : MemoryEntry),
      s.disk_limits.evaluate me.byte_len = .limitSatisfied →
      Hybrid.flush s fs key (.memory me) =
        .ok ({ s with disk_limits := s.disk_limits.incr me.byte_len },
             fs.write key me.data,
             some (.disk { path := key, byte_len := me.byte_len })))
    ∧ (∀ (c c' : CacheS (Hybrid × DirFS) HEntry) (n : Nat),
      (c.data.map Prod.fst).Nodup →
      cacheFlush c = (c', .ok n) →
      (n : Int) = hMemCount (c.data.map Prod.snd) ∧
      c'.strategy.1.memory_limits.current_byte_count
        = c.strategy.1.memory_limits.current_byte_count
            - hMemBytes (c.data.map Prod.snd) ∧
      c'.strategy.1.memory_limits.current_entry_count
        = c.strategy.1.memory_limits.current_entry_count
            - hMemCount (c.data.map Prod.snd) ∧
      c'.strategy.1.disk_limits.current_byte_count
        = c.strategy.1.disk_limits.current_byte_count
            + hMemBytes (c.data.map Prod.snd) ∧
      c'.strategy.1.disk_limits.current_entry_count
        = c.strategy.1.disk_limits.current_entry_count
            + hMemCount (c.data.map Prod.snd) ∧
      (∀ p ∈ c'.data, isMemoryEntry p.2 = false) ∧
      cacheFlush c' = (c', .ok 0)) := by
  refine ⟨fun s fs key de => rfl, ?_, ?_, ?_, ?_⟩
  · intro s fs key me h
    simp [Hybrid.flush, h]
  · intro s fs key me h
    simp [Hybrid.flush, h]
  · intro s fs key me h
    simp [Hybrid.flush, h]
  · intro c c' n hnd h
    rcases hscan : flushScan c.strategy.1 c.strategy.2 c.data with ⟨st, res⟩
    cases res with
    | error e => simp [cacheFlush, hscan] at h
    | ok r =>
      obtain ⟨ks, ins, n'⟩ := r
      obtain ⟨hm, hdb, hde, hdbc, hdec, hks, hins, hn'⟩ :=
        flushScan_ok c.data c.strategy.1 c.strategy.2 st ks ins n' hscan
      subst hks hins
      obtain ⟨s', hloop, hb1, hb2, hb3, hb4, hb5⟩ :=
        flushRemoveLoop_mem_keys c.data st.1 st.2 hnd
      simp only [cacheFlush, hscan, hloop, Prod.mk.injEq, Except.ok.injEq] at h
      obtain ⟨hc', hn⟩ := h
      subst hc' hn
      have halldisk : ∀ p ∈ (flushedPairs c.data).foldl
          (fun d p => insertA d p.1 p.2) (diskPairs c.data),
          isMemoryEntry p.2 = false := by
        intro p hp
        refine all_foldl_insertA (fun p => isMemoryEntry p.2 = false)
          (flushedPairs c.data) (diskPairs c.data) ?_
          (flushedPairs_all_disk c.data) p hp
        intro q hq
        simpa using (List.mem_filter.mp hq).2
      refine ⟨hn', ?_, ?_, ?_, ?_, fun p hp => halldisk p hp,
        cacheFlush_all_disk _ halldisk⟩
      · show s'.memory_limits.current_byte_count = _
        rw [hb3, hm]
      · show s'.memory_limits.current_entry_count = _
        rw [hb4, hm]
      · show s'.disk_limits.current_byte_count = _
        rw [hb5, hdbc]
      · show s'.disk_limits.current_entry_count = _
        rw [hb5, hdec]

/-- Witness for C5: a hybrid cache with one 2-byte memory entry; flush moves
it to the disk tier, returns 1, and a second flush is a no-op returning 0. -/
theorem c5_hybrid_flush_witness :
    (cacheFlush
      { data := [("k", HEntry.memory ⟨[1, 2], 2⟩)],
        strategy := (⟨⟨none, none, 2, 1⟩, ⟨none, none, 0, 0⟩⟩, ⟨[], []⟩),
        compressor := Compressor.noop }).1.strategy.1.memory_limits.current_byte_count
      = 0 ∧
    (cacheFlush
      { data := [("k", HEntry.memory ⟨[1, 2], 2⟩)],
        strategy := (⟨⟨none, none, 2, 1⟩, ⟨none, none, 0, 0⟩⟩, ⟨[], []⟩),
        compressor := Compressor.noop }).1.strategy.1.memory_limits.current_entry_count
      = 0 ∧
    (cacheFlush
      { data := [("k", HEntry.memory ⟨[1, 2], 2⟩)],
        strategy := (⟨⟨none, none, 2, 1⟩, ⟨none, none, 0, 0⟩⟩, ⟨[], []⟩),
        compressor := Compressor.noop }).1.strategy.1.disk_limits.current_byte_count
      = 2 ∧
    (cacheFlush
      { data := [("k", HEntry.memory ⟨[1, 2], 2⟩)],
        strategy := (⟨⟨none, none, 2, 1⟩, ⟨none, none, 0, 0⟩⟩, ⟨[], []⟩),
        compressor := Compressor.noop }).1.strategy.1.disk_limits.current_entry_count
      = 1 ∧
    cacheFlush (cacheFlush
      { data := [("k", HEntry.memory ⟨[1, 2], 2⟩)],
        strategy := (⟨⟨none, none, 2, 1⟩, ⟨none, none, 0, 0⟩⟩, ⟨[], []⟩),
        compressor := Compressor.noop }).1
      = ((cacheFlush
      { data := [("k", HEntry.memory ⟨[1, 2], 2⟩)],
        strategy := (⟨⟨none, none, 2, 1⟩, ⟨none, none, 0, 0⟩⟩, ⟨[], []⟩),
        compressor := Compressor.noop }).1, .ok 0) := by
  have h := c5_hybrid_flush.2.2.2.2
    { data := [("k", HEntry.memory ⟨[1, 2], 2⟩)],
      strategy := (⟨⟨none, none, 2, 1⟩, ⟨none, none, 0, 0⟩⟩, ⟨[], []⟩),
      compressor := Compressor.noop }
    (cacheFlush
      { data := [("k", HEntry.memory ⟨[1, 2], 2⟩)],
        strategy := (⟨⟨none, none, 2, 1⟩, ⟨none, none, 0, 0⟩⟩, ⟨[], []⟩),
        compressor := Compressor.noop }).1
    1 (by decide) rfl
  refine ⟨?_, ?_, ?_, ?_, h.2.2.2.2.2.2⟩
  · rw [h.2.1]
    decide
  · rw [h.2.2.1]
    decide
  · rw [h.2.2.2.1]
    decide
  · rw [h.2.2.2.2.1]
    decide

/-! ## C7: flush count and abort -/

/-- C7: a successful `Cache::flush` (distinct keys) returns exactly the
number of entries actually migrated (the memory-resident ones) and leaves
every no-op (disk-resident) entry in the map untouched; if some entry's flush
fails after a successfully scanned prefix, the whole call returns that error
with the map untouched and the strategy state accumulated over the prefix —
the files written and disk-tier increments of earlier migrations are kept. -/
theorem c7_flush_count_and_abort :
    (∀ (c c' : CacheS (Hybrid × DirFS) HEntry) (n : Nat),
      (c.data.map Prod.fst).Nodup →
      cacheFlush c = (c', .ok n) →
      (n : Int) = hMemCount (c.data.map Prod.snd) ∧
      ∀ (k : String) (de : DiskEntry), (k, .disk de) ∈ c.data →
        (k, .disk de) ∈ c'.data)
    ∧ (∀ (c : CacheS (Hybrid × DirFS) HEntry) (pre post : List (String × HEntry))
        (k : String) (me : MemoryEntry) (st : Hybrid × DirFS) (ks : List String)
        (ins : List (String × HEntry)) (n : Nat) (err : Err),
      c.data = pre ++ (k, .memory me) :: post →
      flushScan c.strategy.1 c.strategy.2 pre = (st, .ok (ks, ins, n)) →
      Hybrid.flush st.1 st.2 k (.memory me) = .error err →
      cacheFlush c = ({ c with strategy := st }, .error err)) := by
  constructor
  · intro c c' n hnd h
    rcases hscan : flushScan c.strategy.1 c.strategy.2 c.data with ⟨st, res⟩
    cases res with
    | error e => simp [cacheFlush, hscan] at h
    | ok r =>
      obtain ⟨ks, ins, n'⟩ := r
      obtain ⟨-, -, -, -, -, hks, hins, hn'⟩ :=
        flushScan_ok c.data c.strategy.1 c.strategy.2 st ks ins n' hscan
      subst hks hins
      obtain ⟨s', hloop, -, -, -, -, -⟩ :=
        flushRemoveLoop_mem_keys c.data st.1 st.2 hnd
      simp only [cacheFlush, hscan, hloop, Prod.mk.injEq, Except.ok.injEq] at h
      obtain ⟨hc', hn⟩ := h
      subst hc' hn
      refine ⟨hn', ?_⟩
      intro k de hp
      have hknot : k ∉ memKeys c.data := not_mem_memKeys_of_disk c.data k de hnd hp
      refine mem_foldl_insertA (flushedPairs c.data) (diskPairs c.data)
        (k, .disk de) ?_ ?_
      · exact List.mem_filter.mpr ⟨hp, by simp [isMemoryEntry]⟩
      · intro q hq hkq
        apply hknot
        rw [← flushedPairs_keys]
        exact List.mem_map.mpr ⟨q, hq, hkq.symm⟩
  · intro c pre post k me st ks ins n err hdata hscan hflush
    have hall := flushScan_error_after_prefix pre c.strategy.1 c.strategy.2
      k me post st ks ins n err hscan hflush
    rw [← hdata] at hall
    simp [cacheFlush, hall]

/-- Witness for C7: two memory entries with a 3-byte disk budget: the first
flush migrates entry "a", the second exceeds the disk byte budget, so the
whole call errors with the disk bytes kind, keeping the file and the counter
increments of "a". -/
theorem c7_flush_count_and_abort_witness :
    cacheFlush
      { data := [("a", HEntry.memory ⟨[1, 2, 3], 3⟩),
                 ("b", HEntry.memory ⟨[4, 5, 6], 3⟩)],
        strategy := (⟨⟨none, none, 6, 2⟩, ⟨some 3, none, 0, 0⟩⟩, ⟨[], []⟩),
        compressor := Compressor.noop }
      = ({ data := [("a", HEntry.memory ⟨[1, 2, 3], 3⟩),
                    ("b", HEntry.memory ⟨[4, 5, 6], 3⟩)],
           strategy := (⟨⟨none, none, 6, 2⟩, ⟨some 3, none, 3, 1⟩⟩,
                        ⟨[⟨"a", [1, 2, 3], true⟩], []⟩),
           compressor := Compressor.noop },
         .error (.limitExceeded LIMIT_KIND_BYTE_DISK)) := by
  exact c7_flush_count_and_abort.2
    { data := [("a", HEntry.memory ⟨[1, 2, 3], 3⟩),
               ("b", HEntry.memory ⟨[4, 5, 6], 3⟩)],
      strategy := (⟨⟨none, none, 6, 2⟩, ⟨some 3, none, 0, 0⟩⟩, ⟨[], []⟩),
      compressor := Compressor.noop }
    [("a", HEntry.memory ⟨[1, 2, 3], 3⟩)] [] "b" ⟨[4, 5, 6], 3⟩
    (⟨⟨none, none, 6, 2⟩, ⟨some 3, none, 3, 1⟩⟩, ⟨[⟨"a", [1, 2, 3], true⟩], []⟩)
    ["a"] [("a", HEntry.disk ⟨"a", 3⟩)] 1 (.limitExceeded LIMIT_KIND_BYTE_DISK)
    rfl (by decide) (by decide)

/-! ## C10: flush error leaves the map unchanged -/

/-- C10: if `Cache::flush` over the hybrid strategy returns an error (keys
distinct), the key-to-entry map is exactly what it was before the call — no
entry removed or replaced — even though the strategy state may carry the
migrations performed before the failure. -/
theorem c10_flush_error_map_unchanged (c c' : CacheS (Hybrid × DirFS) HEntry)
    (err : Err) (hnd : (c.data.map Prod.fst).Nodup)
    (h : cacheFlush c = (c', .error err)) : c'.data = c.data := by
  rcases hscan : flushScan c.strategy.1 c.strategy.2 c.data with ⟨st, res⟩
  cases res with
  | error e =>
    simp only [cacheFlush, hscan, Prod.mk.injEq] at h
    obtain ⟨hc', -⟩ := h
    rw [← hc']
  | ok r =>
    obtain ⟨ks, ins, n'⟩ := r
    obtain ⟨-, -, -, -, -, hks, -, -⟩ :=
      flushScan_ok c.data c.strategy.1 c.strategy.2 st ks ins n' hscan
    subst hks
    obtain ⟨s', hloop, -, -, -, -, -⟩ :=
      flushRemoveLoop_mem_keys c.data st.1 st.2 hnd
    simp [cacheFlush, hscan, hloop] at h

/-- Witness for C10: a failing flush (disk byte budget 2, entries of sizes 2
and 3) leaves the map exactly as before, although the disk tier already holds
the first migration. -/
theorem c10_flush_error_map_unchanged_witness :
    (cacheFlush
      { data := [("a", HEntry.memory ⟨[1, 2], 2⟩),
                 ("b", HEntry.memory ⟨[3, 4, 5], 3⟩)],
        strategy := (⟨⟨none, none, 5, 2⟩, ⟨some 2, none, 0, 0⟩⟩, ⟨[], []⟩),
        compressor := Compressor.noop }).1.data
      = [("a", HEntry.memory ⟨[1, 2], 2⟩), ("b", HEntry.memory ⟨[3, 4, 5], 3⟩)] := by
  exact c10_flush_error_map_unchanged
    { data := [("a", HEntry.memory ⟨[1, 2], 2⟩),
               ("b", HEntry.memory ⟨[3, 4, 5], 3⟩)],
      strategy := (⟨⟨none, none, 5, 2⟩, ⟨some 2, none, 0, 0⟩⟩, ⟨[], []⟩),
      compressor := Compressor.noop }
    (cacheFlush
      { data := [("a", HEntry.memory ⟨[1, 2], 2⟩),
                 ("b", HEntry.memory ⟨[3, 4, 5], 3⟩)],
        strategy := (⟨⟨none, none, 5, 2⟩, ⟨some 2, none, 0, 0⟩⟩, ⟨[], []⟩),
        compressor := Compressor.noop }).1
    (.limitExceeded LIMIT_KIND_BYTE_DISK) (by decide) rfl

end Bincache
